import Mathlib

/-!
Verification of the scalexm/hashmap repository: a differential-reference-counting
atomic smart pointer (src/atomic_arc) and a lock-free resizable hash map
(src/hash_map), shallowly embedded as single-threaded functional semantics.

Machine integers are modelled as Nat (with explicit reductions mod 2^64 where the
Rust code wraps), signed 32-bit quantities as Int with explicit two's-complement
conversion, and process aborts / panics / assertion failures as Option results.
-/

namespace HashmapVerify

/-! ## Layer 0: constants of src/atomic_arc (mod.rs and inner.rs) -/

def U64 : Nat := 2 ^ 64

def U32 : Nat := 2 ^ 32

/-- Rust: const PTR_MASK: usize = (-1isize as usize) >> 20. -/
def PTR_MASK : Nat := (U64 - 1) >>> 20

/-- Rust: const PTR_SHIFT: usize = 4. -/
def PTR_SHIFT : Nat := 4

/-- Rust: const OUTER_COUNT_SHIFT: usize = 44. -/
def OUTER_COUNT_SHIFT : Nat := 44

/-- Rust: const MAX_OUTER_COUNT: usize = 1 << 20 - 1.
In Rust, subtraction binds tighter than shift, so this is 1 <<< 19 = 524288,
not (1 <<< 20) - 1 = 1048575. We embed the expression exactly as it parses. -/
def MAX_OUTER_COUNT : Nat := 1 <<< (20 - 1)

/-- Rust: const BASIC_COUNT_SHIFT: usize = 32 (inner.rs). -/
def BASIC_COUNT_SHIFT : Nat := 32

/-- Rust: const STRONG_COUNT_MASK: usize = (-1isize as usize) >> 32 (inner.rs). -/
def STRONG_COUNT_MASK : Nat := (U64 - 1) >>> 32

/-- Rust: const MAX_BASIC_COUNT: i32 = std::i32::MAX as _ (inner.rs). -/
def MAX_BASIC_COUNT : Int := 2 ^ 31 - 1

/-- Rust: const MIN_BASIC_COUNT: i32 = std::i32::MIN as _ (inner.rs). -/
def MIN_BASIC_COUNT : Int := -(2 ^ 31)

/-- Rust: const MAX_STRONG_COUNT: usize = std::u32::MAX as _ (inner.rs). -/
def MAX_STRONG_COUNT : Nat := U32 - 1

/-! ## Two's-complement helpers (Rust `as` casts) -/

/-- Reinterpret the low 32 bits of a usize as an i32 (Rust `x as i32`). -/
def toI32 (n : Nat) : Int :=
  if n % U32 < 2 ^ 31 then (n % U32 : Int) else (n % U32 : Int) - (U32 : Int)

/-- Sign-extend an i32 into a usize (Rust `basic as usize` for basic: i32). -/
def i32AsU64 (b : Int) : Nat := (b % (U64 : Int)).toNat

/-- The low 32 bits of a sign-extended i32 (used to build packed count words). -/
def i32AsU32 (b : Int) : Nat := (b % (U32 : Int)).toNat

/-- 64-bit wrapping subtraction (Rust fetch_sub on an AtomicUsize). -/
def wrapSub64 (a b : Nat) : Nat := (a + (U64 - b % U64)) % U64

/-- Wrapping signed 32-bit subtraction result as an Int in [-2^31, 2^31). -/
def wrapI32 (z : Int) : Int := (z + 2 ^ 31) % (U32 : Int) - 2 ^ 31

/-! ## Inner counts word (inner.rs)

The Inner packs both counts on one 64-bit word: basic (i32) in bits 32-63,
strong (u32) in bits 0-31 (this is what the code computes; see
`Inner::release` and `Inner::strong_acquire`). -/

/-- Build the packed counts word holding (basic, strong). -/
def packCounts (basic : Int) (strong : Nat) : Nat :=
  i32AsU32 basic <<< BASIC_COUNT_SHIFT ||| strong

/-- Observable actions of Inner::release, in program order. -/
inductive ReleaseEvent where
  | fetchSubRelease (delta : Nat)
  | abortProcess
  | acquireFence
  | deallocInner
deriving DecidableEq

/-- The 64-bit operand of the fetch_sub in Inner::release:
Rust `strong | ((basic as usize) << BASIC_COUNT_SHIFT)` (the shift wraps mod 2^64). -/
def releaseDelta (basic : Int) (strong : Nat) : Nat :=
  strong ||| (i32AsU64 basic <<< BASIC_COUNT_SHIFT) % U64

/-- Inner::release(inner, basic, strong) (inner.rs lines 34-51), single-threaded:
returns the counts word after the fetch_sub together with the list of observable
events the call performs after the fetch_sub. -/
def innerRelease (counts : Nat) (basic : Int) (strong : Nat) : Nat × List ReleaseEvent :=
  let delta := releaseDelta basic strong
  let oldBasic := toI32 (counts >>> BASIC_COUNT_SHIFT)
  let oldStrong := counts &&& STRONG_COUNT_MASK
  (wrapSub64 counts delta,
    ReleaseEvent.fetchSubRelease delta ::
      (if oldBasic > MAX_BASIC_COUNT + min basic 0 then [ReleaseEvent.abortProcess]
       else if oldBasic < MIN_BASIC_COUNT + max basic 0 then [ReleaseEvent.abortProcess]
       else if oldBasic = basic ∧ oldStrong = strong then
         [ReleaseEvent.acquireFence, ReleaseEvent.deallocInner]
       else []))

/-- Inner::strong_acquire (inner.rs lines 25-30): fetch_add(1) on the counts word,
aborting when the strong field of the previous value was u32::MAX.
Returns the new counts word, or none on abort. -/
def innerStrongAcquire (counts : Nat) : Option Nat :=
  if counts &&& STRONG_COUNT_MASK = MAX_STRONG_COUNT then none
  else some ((counts + 1) % U64)

/-! ## Atomic cell word (mod.rs)

The cell packs the outer count (bits 44-63) and the compressed pointer
(bits 0-43) on one 64-bit word. -/

/-- The Inner address stored in a cell word: (w & PTR_MASK) << PTR_SHIFT. -/
def ptrField (w : Nat) : Nat := (w &&& PTR_MASK) <<< PTR_SHIFT

/-- The outer count stored in a cell word: w >> OUTER_COUNT_SHIFT. -/
def outerField (w : Nat) : Nat := w >>> OUTER_COUNT_SHIFT

/-- Whether AtomicArc::load aborts, given the pre-increment word it observed
(mod.rs line 79: the comparison is against MAX_OUTER_COUNT). -/
def loadAborts (w : Nat) : Bool := outerField w == MAX_OUTER_COUNT

/-- The cell word after load's fetch_add(1 << OUTER_COUNT_SHIFT) (mod.rs line 77). -/
def loadWordAfter (w : Nat) : Nat := (w + (1 <<< OUTER_COUNT_SHIFT)) % U64

/-- AtomicArc::load on a nullable cell holding word w, single-threaded:
none on abort, otherwise (returned value: none for the null state, or the Inner
address of the returned handle; cell word after the call). -/
def nullableLoad (w : Nat) : Option (Option Nat × Nat) :=
  if loadAborts w then none
  else some (if ptrField w = 0 then none else some (ptrField w), loadWordAfter w)

/-- AtomicArc::release(ptr_and_count) (mod.rs lines 147-153): the Inner release it
performs, if any: some (inner address, basic delta, strong delta), or none when
the pointer field is null (no Inner is touched). -/
def cellRelease (w : Nat) : Option (Nat × Int × Nat) :=
  if ptrField w = 0 then none
  else some (ptrField w, -(toI32 (outerField w)), 1)

/-- AtomicArc::compare_exchange (mod.rs lines 117-141), word-level single-threaded
reduct: cur is the Inner address of the current handle, newPtr the Inner address
of the new handle (P::strong_acquire returns the raw address). On a pointer match
the CAS installs newPtr AS IS: the code passes new_ptr, not new_ptr >> PTR_SHIFT,
to compare_exchange_weak, unlike store and swap which shift.
Returns (result, cell word after). -/
def compareExchangeWord (w cur newPtr : Nat) : Bool × Nat :=
  if ptrField w = cur then (true, newPtr) else (false, w)

/-- AtomicArc::compare_exchange with the new handle's Inner counts word tracked,
single-threaded: none on abort, otherwise some
(result, cell word after, new's Inner counts word after, whether new's Inner was
deallocated by the call). On failure the code runs P::strong_release(new_ptr),
i.e. Inner::release(new_ptr, 0, 1). -/
def compareExchangeFull (w cur newPtr newCounts : Nat) :
    Option (Bool × Nat × Nat × Bool) :=
  match innerStrongAcquire newCounts with
  | none => none
  | some c1 =>
    if ptrField w = cur then
      some (true, newPtr, c1, false)
    else
      let rel := innerRelease c1 0 1
      some (false, w, rel.1, decide (ReleaseEvent.deallocInner ∈ rel.2))

/-! ## Arithmetic lemmas about the packed words -/

theorem U32_eq : U32 = 4294967296 := by norm_num [U32]

theorem U64_eq : U64 = 18446744073709551616 := by norm_num [U64]

theorem i32AsU32_lt (b : Int) : i32AsU32 b < U32 := by
  have h1 : (0 : Int) < (U32 : Int) := by rw [U32_eq]; norm_num
  have h2' := Int.emod_lt_of_pos b h1
  have h3 := Int.emod_nonneg b (by rw [U32_eq]; norm_num : (U32 : Int) ≠ 0)
  unfold i32AsU32
  omega

theorem i32AsU32_cast (b : Int) : ((i32AsU32 b : Nat) : Int) = b % (U32 : Int) := by
  have h3 := Int.emod_nonneg b (by rw [U32_eq]; norm_num : (U32 : Int) ≠ 0)
  unfold i32AsU32
  exact Int.toNat_of_nonneg h3

theorem packCounts_eq_add (b : Int) (s : Nat) (hs : s < U32) :
    packCounts b s = i32AsU32 b * U32 + s := by
  have hs' : s < 2 ^ 32 := hs
  unfold packCounts BASIC_COUNT_SHIFT
  rw [Nat.shiftLeft_eq, Nat.mul_comm, ← Nat.mul_add_lt_is_or hs']
  show 2 ^ 32 * i32AsU32 b + s = i32AsU32 b * U32 + s
  unfold U32
  ring

theorem hi_field_of_pack (m s : Nat) (hs : s < U32) :
    (m * U32 + s) >>> BASIC_COUNT_SHIFT = m := by
  have h : (m * U32 + s) >>> BASIC_COUNT_SHIFT = (m * U32 + s) / 2 ^ 32 :=
    Nat.shiftRight_eq_div_pow _ _
  rw [h]
  rw [U32_eq] at hs ⊢
  omega

theorem strong_mask_eq : STRONG_COUNT_MASK = 2 ^ 32 - 1 := by decide

theorem lo_field_of_pack (m s : Nat) (hs : s < U32) :
    (m * U32 + s) &&& STRONG_COUNT_MASK = s := by
  rw [strong_mask_eq, Nat.and_pow_two_sub_one_eq_mod]
  rw [U32_eq] at hs ⊢
  omega

theorem toI32_i32AsU32 (b : Int) (h1 : MIN_BASIC_COUNT ≤ b) (h2 : b ≤ MAX_BASIC_COUNT) :
    toI32 (i32AsU32 b) = b := by
  have hlo : -(2 ^ 31 : Int) ≤ b := h1
  have hhi : b ≤ 2 ^ 31 - 1 := h2
  have hA := i32AsU32_cast b
  have hlt := i32AsU32_lt b
  have hmod : i32AsU32 b % U32 = i32AsU32 b := Nat.mod_eq_of_lt hlt
  have h3 := Int.emod_nonneg b (by rw [U32_eq]; norm_num : (U32 : Int) ≠ 0)
  have h4 := Int.emod_lt_of_pos b (by rw [U32_eq]; norm_num : (0 : Int) < (U32 : Int))
  have hcast : ((U32 : Nat) : Int) = 4294967296 := by rw [U32_eq]; norm_num
  have h5 : b % (U32 : Int) = b ∨ b % (U32 : Int) = b + (U32 : Int) := by
    rcases le_or_lt 0 b with hb | hb
    · left
      apply Int.emod_eq_of_lt hb
      omega
    · right
      have hge : b + (U32 : Int) ≥ 0 := by omega
      have heq : (b + (U32 : Int)) % (U32 : Int) = b % (U32 : Int) := by
        simp [Int.add_mul_emod_self_left]
      rw [← heq]
      apply Int.emod_eq_of_lt hge
      omega
  unfold toI32
  rw [hmod]
  split
  next h =>
    have h' : ((i32AsU32 b : Nat) : Int) < 2 ^ 31 := by exact_mod_cast h
    omega
  next h =>
    have h' : ¬ ((i32AsU32 b : Nat) : Int) < 2 ^ 31 := by exact_mod_cast h
    omega

theorem releaseDelta_eq (b : Int) (s : Nat) (hs : s < U32) :
    releaseDelta b s = i32AsU32 b * U32 + s := by
  have hs' : s < 2 ^ 32 := hs
  have h1 : (i32AsU64 b <<< BASIC_COUNT_SHIFT) % U64 = i32AsU32 b * U32 := by
    unfold BASIC_COUNT_SHIFT
    rw [Nat.shiftLeft_eq]
    have h2 : i32AsU64 b % U32 = i32AsU32 b := by
      have hnn := Int.emod_nonneg b (by rw [U64_eq]; norm_num : (U64 : Int) ≠ 0)
      have hc : ((i32AsU64 b : Nat) : Int) = b % (U64 : Int) := by
        unfold i32AsU64
        exact Int.toNat_of_nonneg hnn
      have hdvd : ((U32 : Nat) : Int) ∣ ((U64 : Nat) : Int) := by
        rw [U32_eq, U64_eq]; norm_num
      have h3 : (b % (U64 : Int)) % (U32 : Int) = b % (U32 : Int) :=
        Int.emod_emod_of_dvd b hdvd
      have h4 : ((i32AsU64 b % U32 : Nat) : Int) = ((i32AsU32 b : Nat) : Int) := by
        push_cast
        rw [hc, h3, ← i32AsU32_cast b]
      exact_mod_cast h4
    have h5 : i32AsU64 b * 2 ^ 32 % U64 = i32AsU64 b % U32 * U32 := by
      rw [U32_eq, U64_eq] at *
      omega
    rw [h5, h2]
  rw [releaseDelta, h1, Nat.or_comm]
  have h6 : i32AsU32 b * U32 = 2 ^ 32 * i32AsU32 b := by
    unfold U32
    ring
  rw [h6, ← Nat.mul_add_lt_is_or hs']

/-- Claim C3: release(inner, basic, strong) on a packed counts word holding
(old_basic, old_strong) deallocates the Inner exactly when old_basic = basic and
old_strong = strong, and the deallocation is preceded by an Acquire fence (the
event list of the call is then exactly fetch_sub, fence, dealloc). -/
theorem release_dealloc_iff (ob b : Int) (os s : Nat)
    (hob1 : MIN_BASIC_COUNT ≤ ob) (hob2 : ob ≤ MAX_BASIC_COUNT)
    (hb1 : MIN_BASIC_COUNT ≤ b) (hb2 : b ≤ MAX_BASIC_COUNT)
    (hos : os < U32) :
    (ReleaseEvent.deallocInner ∈ (innerRelease (packCounts ob os) b s).2 ↔
      (ob = b ∧ os = s)) ∧
    ((ob = b ∧ os = s) → (innerRelease (packCounts ob os) b s).2 =
      [ReleaseEvent.fetchSubRelease (releaseDelta b s), ReleaseEvent.acquireFence,
        ReleaseEvent.deallocInner]) := by
  have hhi : packCounts ob os >>> BASIC_COUNT_SHIFT = i32AsU32 ob := by
    rw [packCounts_eq_add ob os hos]
    exact hi_field_of_pack _ _ hos
  have hlo : packCounts ob os &&& STRONG_COUNT_MASK = os := by
    rw [packCounts_eq_add ob os hos]
    exact lo_field_of_pack _ _ hos
  have hOB : toI32 (packCounts ob os >>> BASIC_COUNT_SHIFT) = ob := by
    rw [hhi]
    exact toI32_i32AsU32 ob hob1 hob2
  have hMAX : MAX_BASIC_COUNT = 2 ^ 31 - 1 := rfl
  have hMIN : MIN_BASIC_COUNT = -(2 ^ 31) := rfl
  rw [hMIN] at hob1 hb1
  rw [hMAX] at hob2 hb2
  simp only [innerRelease, hOB, hlo]
  split
  next hA =>
    rw [hMAX] at hA
    constructor
    · simp only [List.mem_cons, List.mem_singleton]
      constructor
      · rintro (h | h | h) <;> simp_all
      · rintro ⟨rfl, rfl⟩
        exfalso
        omega
    · rintro ⟨rfl, rfl⟩
      exfalso
      omega
  next hA =>
    split
    next hB =>
      rw [hMIN] at hB
      constructor
      · simp only [List.mem_cons, List.mem_singleton]
        constructor
        · rintro (h | h | h) <;> simp_all
        · rintro ⟨rfl, rfl⟩
          exfalso
          omega
      · rintro ⟨rfl, rfl⟩
        exfalso
        omega
    next hB =>
      split
      next hC =>
        refine ⟨?_, fun _ => rfl⟩
        simp [hC]
      next hC =>
        constructor
        · simp only [List.mem_cons, List.mem_singleton]
          constructor
          · rintro (h | h) <;> simp_all
          · intro h
            exact absurd h hC
        · intro h
          exact absurd h hC

/-- Claim C3 witness: a concrete release with matching counts deallocates with the
fence preceding the dealloc. -/
theorem release_dealloc_iff_witness :
    (ReleaseEvent.deallocInner ∈ (innerRelease (packCounts 1 0) 1 0).2 ↔
      ((1 : Int) = 1 ∧ (0 : Nat) = 0)) ∧
    (((1 : Int) = 1 ∧ (0 : Nat) = 0) → (innerRelease (packCounts 1 0) 1 0).2 =
      [ReleaseEvent.fetchSubRelease (releaseDelta 1 0), ReleaseEvent.acquireFence,
        ReleaseEvent.deallocInner]) :=
  release_dealloc_iff 1 1 0 0 (by decide) (by decide) (by decide) (by decide) (by decide)

/-- Claim C4: the single 64-bit wrapping subtraction of the packed delta subtracts
the strong and basic fields independently: the strong field of the result is
old_strong - strong, and the basic field, read as a signed 32-bit value, is the
wrapping signed difference old_basic - basic. -/
theorem release_fields_independent (ob b : Int) (os s : Nat)
    (hob1 : MIN_BASIC_COUNT ≤ ob) (hob2 : ob ≤ MAX_BASIC_COUNT)
    (hb1 : MIN_BASIC_COUNT ≤ b) (hb2 : b ≤ MAX_BASIC_COUNT)
    (hos : os < U32) (hs : s ≤ os) :
    wrapSub64 (packCounts ob os) (releaseDelta b s) &&& STRONG_COUNT_MASK = os - s ∧
    toI32 (wrapSub64 (packCounts ob os) (releaseDelta b s) >>> BASIC_COUNT_SHIFT) =
      wrapI32 (ob - b) := by
  have hs' : s < U32 := lt_of_le_of_lt hs hos
  have hA := i32AsU32_lt ob
  have hB := i32AsU32_lt b
  have hAc := i32AsU32_cast ob
  have hBc := i32AsU32_cast b
  rw [packCounts_eq_add ob os hos, releaseDelta_eq b s hs']
  set A := i32AsU32 ob with hAdef
  set B := i32AsU32 b with hBdef
  rw [U32_eq] at hA hB
  have hN : wrapSub64 (A * U32 + os) (B * U32 + s) =
      ((A + 2 ^ 32 - B) % 2 ^ 32) * 2 ^ 32 + (os - s) := by
    unfold wrapSub64
    rw [U32_eq, U64_eq] at *
    omega
  rw [hN]
  constructor
  · rw [strong_mask_eq, Nat.and_pow_two_sub_one_eq_mod]
    rw [U32_eq] at *
    omega
  · have hdiv : (((A + 2 ^ 32 - B) % 2 ^ 32) * 2 ^ 32 + (os - s)) >>> BASIC_COUNT_SHIFT =
        (A + 2 ^ 32 - B) % 2 ^ 32 := by
      have h := Nat.shiftRight_eq_div_pow
        (((A + 2 ^ 32 - B) % 2 ^ 32) * 2 ^ 32 + (os - s)) 32
      rw [show BASIC_COUNT_SHIFT = 32 from rfl, h]
      rw [U32_eq] at *
      omega
    rw [hdiv]
    unfold toI32 wrapI32
    have hmodlt : (A + 2 ^ 32 - B) % 2 ^ 32 < U32 := by
      rw [U32_eq]
      omega
    have hmm : (A + 2 ^ 32 - B) % 2 ^ 32 % U32 = (A + 2 ^ 32 - B) % 2 ^ 32 :=
      Nat.mod_eq_of_lt hmodlt
    rw [hmm]
    have hcast : (((A + 2 ^ 32 - B) % 2 ^ 32 : Nat) : Int) =
        ((A : Int) + 2 ^ 32 - (B : Int)) % 2 ^ 32 := by
      omega
    have hU32c : ((U32 : Nat) : Int) = 2 ^ 32 := by rw [U32_eq]; norm_num
    have hlo1 : -(2 ^ 31 : Int) ≤ ob := hob1
    have hhi1 : ob ≤ 2 ^ 31 - 1 := hob2
    have hlo2 : -(2 ^ 31 : Int) ≤ b := hb1
    have hhi2 : b ≤ 2 ^ 31 - 1 := hb2
    rw [hU32c] at hAc hBc
    clear hmodlt hmm hN hs hos hs' hA hB
    split
    next h =>
      have h' : (((A + 2 ^ 32 - B) % 2 ^ 32 : Nat) : Int) < 2 ^ 31 := by exact_mod_cast h
      rw [hcast] at h'
      rw [hcast, hU32c]
      omega
    next h =>
      have h' : ¬ (((A + 2 ^ 32 - B) % 2 ^ 32 : Nat) : Int) < 2 ^ 31 := by exact_mod_cast h
      rw [hcast] at h'
      rw [hcast, hU32c]
      omega

/-- Claim C4 witness: a concrete packed subtraction with ob = 5, b = 2, os = 7,
s = 3 yields fields 4 and 3. -/
theorem release_fields_independent_witness :
    wrapSub64 (packCounts 5 7) (releaseDelta 2 3) &&& STRONG_COUNT_MASK = 7 - 3 ∧
    toI32 (wrapSub64 (packCounts 5 7) (releaseDelta 2 3) >>> BASIC_COUNT_SHIFT) =
      wrapI32 (5 - 2) :=
  release_fields_independent 5 2 7 3 (by decide) (by decide) (by decide) (by decide)
    (by decide) (by decide)

/-- Claim C1 (evidence of the code bug): a cell holding the Inner address 32 (cell
word 2 = 32 >> PTR_SHIFT) compare-exchanged with current = 32 and a new handle at
Inner address 16 returns true, but the CAS installs the raw address 16 instead of
16 >> PTR_SHIFT, so the next load decodes the pointer 256, not 16: the loaded
handle's Inner is not new's Inner. -/
theorem compare_exchange_unshifted_install_bug :
    ptrField 2 = 32 ∧
    (compareExchangeWord 2 32 16).1 = true ∧
    (compareExchangeWord 2 32 16).2 = 16 ∧
    ptrField (compareExchangeWord 2 32 16).2 = 256 ∧
    (256 : Nat) ≠ 16 := by
  decide

/-- Claim C2 (evidence of the code bug): MAX_OUTER_COUNT is 1 << (20 - 1) = 2^19
by Rust operator precedence, not 2^20 - 1; a load observing the pre-increment
outer count 2^19 aborts, while a load observing 2^20 - 1 (the documented
threshold) returns normally. -/
theorem outer_count_threshold_bug :
    MAX_OUTER_COUNT = 2 ^ 19 ∧
    MAX_OUTER_COUNT ≠ 2 ^ 20 - 1 ∧
    loadAborts (2 ^ 19 <<< OUTER_COUNT_SHIFT) = true ∧
    loadAborts ((2 ^ 20 - 1) <<< OUTER_COUNT_SHIFT) = false := by
  decide

/-- Claim C9: when compare_exchange returns false, the cell word is unchanged and
the strong unit acquired on new's Inner at entry has been released again: new's
counts word is restored to its pre-call value, and (whenever new's basic count is
nonzero, as it is while the caller holds the new handle) the Inner is not freed. -/
theorem compare_exchange_false_unchanged (w cur newPtr newCounts : Nat)
    (hc : newCounts < U64) (w' c' : Nat) (freed : Bool)
    (h : compareExchangeFull w cur newPtr newCounts = some (false, w', c', freed)) :
    w' = w ∧ c' = newCounts ∧
      (toI32 (newCounts >>> BASIC_COUNT_SHIFT) ≠ 0 → freed = false) := by
  by_cases hmax : newCounts &&& STRONG_COUNT_MASK = MAX_STRONG_COUNT
  · have hacq : innerStrongAcquire newCounts = none := by
      unfold innerStrongAcquire
      rw [if_pos hmax]
    simp only [compareExchangeFull, hacq] at h
    exact Option.noConfusion h
  · have hacq : innerStrongAcquire newCounts = some ((newCounts + 1) % U64) := by
      unfold innerStrongAcquire
      rw [if_neg hmax]
    rw [strong_mask_eq, Nat.and_pow_two_sub_one_eq_mod] at hmax
    have hmask' : newCounts % 2 ^ 32 ≠ 2 ^ 32 - 1 := by
      intro hcc
      apply hmax
      rw [hcc]
      decide
    have hc1' : (newCounts + 1) % U64 = newCounts + 1 := by
      rw [U64_eq] at *
      omega
    by_cases hmatch : ptrField w = cur
    · simp only [compareExchangeFull, hacq, if_pos hmatch, Option.some_inj,
        Prod.mk.injEq] at h
      exact absurd h.1 (by decide)
    · simp only [compareExchangeFull, hacq, if_neg hmatch, Option.some_inj,
        Prod.mk.injEq] at h
      obtain ⟨-, hw', hcc', hfr⟩ := h
      have hδ : releaseDelta 0 1 = 1 := by decide
      have hsub : wrapSub64 ((newCounts + 1) % U64) 1 = newCounts := by
        unfold wrapSub64
        rw [hc1', U64_eq] at *
        omega
      have hshift : ((newCounts + 1) % U64) >>> BASIC_COUNT_SHIFT =
          newCounts >>> BASIC_COUNT_SHIFT := by
        rw [show BASIC_COUNT_SHIFT = 32 from rfl, Nat.shiftRight_eq_div_pow,
          Nat.shiftRight_eq_div_pow, hc1']
        omega
      refine ⟨hw'.symm, ?_, ?_⟩
      · rw [← hcc']
        show wrapSub64 ((newCounts + 1) % U64) (releaseDelta 0 1) = newCounts
        rw [hδ, hsub]
      · intro hbz
        rw [← hfr]
        simp only [innerRelease, hshift]
        split
        · simp
        · split
          · simp
          · split
            next hcond =>
              exact absurd hcond.1 hbz
            · simp

/-- Claim C9 witness: a concrete failing compare_exchange (cell pointer 32,
current 48, new counts word with basic 1 and strong 1) leaves the cell word and
new's counts word unchanged and does not free new's Inner. -/
theorem compare_exchange_false_unchanged_witness :
    compareExchangeFull 2 48 16 4294967297 = some (false, 2, 4294967297, false) ∧
    ((2 : Nat) = 2 ∧ (4294967297 : Nat) = 4294967297 ∧
      (toI32 (4294967297 >>> BASIC_COUNT_SHIFT) ≠ 0 → false = false)) :=
  ⟨by decide,
    compare_exchange_false_unchanged 2 48 16 4294967297 (by decide) 2 4294967297 false
      (by decide)⟩

/-- Claim C10: a load on a nullable cell in the null state returns the null value
yet still increments the outer count by one; whether a load aborts depends only
on the outer-count field, exactly as for a non-empty cell; and releasing a null
word (on overwrite or drop of the cell) touches no Inner. -/
theorem nullable_load_null_state (w w2 : Nat) (hw : w < U64) (hnull : ptrField w = 0)
    (hcnt : outerField w2 = outerField w) :
    loadAborts w2 = loadAborts w ∧
    (loadAborts w = false →
      nullableLoad w = some (none, loadWordAfter w) ∧
      outerField (loadWordAfter w) = (outerField w + 1) % 2 ^ 20) ∧
    cellRelease w = none := by
  refine ⟨?_, ?_, ?_⟩
  · unfold loadAborts
    rw [hcnt]
  · intro hab
    constructor
    · unfold nullableLoad
      rw [hab, hnull]
      simp
    · unfold outerField loadWordAfter
      rw [Nat.shiftRight_eq_div_pow, Nat.shiftRight_eq_div_pow] at *
      have hsl : (1 : Nat) <<< OUTER_COUNT_SHIFT = 2 ^ 44 := by decide
      rw [hsl, show OUTER_COUNT_SHIFT = 44 from rfl]
      rw [U64_eq] at *
      omega
  · unfold cellRelease
    rw [hnull]
    simp

/-- Claim C10 witness: a null-pointer cell word with outer count 5. -/
theorem nullable_load_null_state_witness :
    loadAborts (5 <<< 44) = loadAborts (5 <<< 44) ∧
    (loadAborts (5 <<< 44) = false →
      nullableLoad (5 <<< 44) = some (none, loadWordAfter (5 <<< 44)) ∧
      outerField (loadWordAfter (5 <<< 44)) = (outerField (5 <<< 44) + 1) % 2 ^ 20) ∧
    cellRelease (5 <<< 44) = none :=
  nullable_load_null_state (5 <<< 44) (5 <<< 44) (by decide) (by decide) rfl

/-! ## Layer 1: hash map (src/hash_map), single-threaded functional model

Atomic slots become plain values: an AtomicPtr<Entry> is an Option Entry, a
NullableAtomicArc<V> value cell is an Option V, the hashes array entry is a Nat.
In a single-threaded execution every CAS in the code observes the value just
read, so each CAS is resolved to its deterministic outcome. Process panics and
failed assertions are modelled as none. The f32 load factor is modelled as a
rational number. -/

/-- Rust: const N: usize = 7 (hash_map/mod.rs). -/
def N : Nat := 7

/-- Rust: const MIN_LOAD_FACTOR_FOR_RESIZE: f32 = 0.5 (hash_map/mod.rs). -/
def MIN_LOAD_FACTOR_FOR_RESIZE : ℚ := 0.5

/-- Rust: const DEPTH_TRESHOLD: i32 = 1 (hash_map/mod.rs). -/
def DEPTH_TRESHOLD : Int := 1

/-- Rust: const CHUNK_SIZE: usize = 8 (hash_map/mod.rs). -/
def CHUNK_SIZE : Nat := 8

/-- Entry record (virtual_bucket.rs): a key plus the nullable value cell. -/
structure Entry (K V : Type) where
  key : K
  value : Option V
deriving DecidableEq

/-- One slot of a virtual bucket: hashes[j] and entries[j] are indexed by the
same j in the code, so we model them as one list of pairs. -/
structure Slot (K V : Type) where
  hash : Nat
  entry : Option (Entry K V)
deriving DecidableEq

/-- VirtualBucket (virtual_bucket.rs): N slots plus the overflow chain. -/
inductive VirtualBucket (K V : Type) where
  | mk (slots : List (Slot K V)) (next : Option (VirtualBucket K V))

section HashMapModel

variable {K V : Type}

def VirtualBucket.slots : VirtualBucket K V → List (Slot K V)
  | .mk s _ => s

def VirtualBucket.next : VirtualBucket K V → Option (VirtualBucket K V)
  | .mk _ n => n

/-- VirtualBucket::default: N empty slots (hash 0, null entry), no overflow. -/
def emptyBucket : VirtualBucket K V :=
  .mk (List.replicate N ⟨0, none⟩) none

/-- Result of VirtualBucket::insert: Ok(inserted) or Err(ResizeNeeded). -/
inductive InsOut where
  | ok (inserted : Bool)
  | resizeNeeded
deriving DecidableEq

/-- The slot loop of VirtualBucket::insert (virtual_bucket.rs lines 58-99),
single-threaded: walk the slots in order; some (slots', inserted) when the loop
returns Ok(inserted) (with the updated slots), none when all slots fail.
On an empty slot the hash CAS from 0 succeeds (or already holds the probe hash)
and the entry CAS from null succeeds, so the entry is installed and the loop
returns Ok(true); an empty slot whose hash is neither 0 nor the probe hash is
skipped. On an occupied slot with matching hash and key the value is stored
(for is_new_item) and the loop returns Ok(false); otherwise the slot is skipped. -/
def insertSlots [DecidableEq K] (hash : Nat) (key : K) (value : V) (isNew : Bool) :
    List (Slot K V) → Option (List (Slot K V) × Bool)
  | [] => none
  | s :: rest =>
    match s.entry with
    | none =>
      if s.hash = 0 ∨ s.hash = hash then
        some ({ hash := hash, entry := some ⟨key, some value⟩ } :: rest, true)
      else
        (insertSlots hash key value isNew rest).map (fun p => (s :: p.1, p.2))
    | some e =>
      if s.hash = hash ∧ e.key = key then
        match isNew with
        | true =>
          some ({ s with entry := some { e with value := some value } } :: rest, false)
        | false =>
          some (s :: rest, false)
      else
        (insertSlots hash key value isNew rest).map (fun p => (s :: p.1, p.2))

/-- The scan of VirtualBucket::get over one bucket's slots (virtual_bucket.rs
lines 141-148): find_hash finds the next slot whose hash matches; a match with a
null entry or a different key continues the scan; the first full match returns
the value cell's contents. some r = the scan returned r; none = not found here. -/
def getSlots [DecidableEq K] (hash : Nat) (key : K) :
    List (Slot K V) → Option (Option V)
  | [] => none
  | s :: rest =>
    match s.entry with
    | some e =>
      if s.hash = hash ∧ e.key = key then some e.value
      else getSlots hash key rest
    | none => getSlots hash key rest

/-- The scan of VirtualBucket::remove over one bucket's slots (virtual_bucket.rs
lines 124-132): the first slot with matching hash, non-null entry and matching
key has its value cell set to null. some slots' = found and tombstoned;
none = not found in this bucket (slots unchanged). -/
def removeSlots [DecidableEq K] (hash : Nat) (key : K) :
    List (Slot K V) → Option (List (Slot K V))
  | [] => none
  | s :: rest =>
    match s.entry with
    | some e =>
      if s.hash = hash ∧ e.key = key then
        some ({ s with entry := some { e with value := none } } :: rest)
      else (removeSlots hash key rest).map (s :: ·)
    | none => (removeSlots hash key rest).map (s :: ·)

/-- Number of buckets in an overflow chain. -/
def chainLen : VirtualBucket K V → Nat
  | .mk _ none => 1
  | .mk _ (some nb) => 1 + chainLen nb

/-- VirtualBucket::insert (virtual_bucket.rs lines 49-121), single-threaded,
with explicit recursion fuel: after the slot loop fails, return ResizeNeeded
when load_factor >= 0.5 and depth >= DEPTH_TRESHOLD; otherwise recurse into the
existing next bucket with depth+1. When next is null the code allocates and
CAS-installs a default bucket, but the Ok arm of the compare_exchange rebinds
next_ptr to the returned previous value — which is null — so the following
assert on next_ptr being non-null fails (virtual_bucket.rs lines 114, 119):
that panic is modelled none, as is fuel exhaustion (unreachable when fuel
exceeds the chain length). -/
def insertFuel [DecidableEq K] (hash : Nat) (key : K) (value : V) (isNew : Bool)
    (lf : ℚ) : Nat → VirtualBucket K V → Int → Option (VirtualBucket K V × InsOut)
  | 0, _, _ => none
  | fuel + 1, b, depth =>
    match insertSlots hash key value isNew b.slots with
    | some (slots', inserted) => some (.mk slots' b.next, .ok inserted)
    | none =>
      if lf ≥ MIN_LOAD_FACTOR_FOR_RESIZE ∧ depth ≥ DEPTH_TRESHOLD then
        some (b, .resizeNeeded)
      else
        match b.next with
        | some nb =>
          (insertFuel hash key value isNew lf fuel nb (depth + 1)).map
            (fun p => (.mk b.slots (some p.1), p.2))
        | none => none

/-- VirtualBucket::insert with enough fuel for the whole chain. -/
def VirtualBucket.insert [DecidableEq K] (b : VirtualBucket K V) (hash : Nat) (key : K)
    (value : V) (isNew : Bool) (lf : ℚ) (depth : Int) :
    Option (VirtualBucket K V × InsOut) :=
  insertFuel hash key value isNew lf (chainLen b + 2) b depth

/-- VirtualBucket::get (virtual_bucket.rs lines 140-156). -/
def VirtualBucket.get [DecidableEq K] : VirtualBucket K V → Nat → K → Option V
  | .mk slots next, hash, key =>
    match getSlots hash key slots with
    | some r => r
    | none =>
      match next with
      | some nb => VirtualBucket.get nb hash key
      | none => none

/-- VirtualBucket::remove (virtual_bucket.rs lines 123-138). -/
def VirtualBucket.remove [DecidableEq K] : VirtualBucket K V → Nat → K → VirtualBucket K V
  | .mk slots next, hash, key =>
    match removeSlots hash key slots with
    | some slots' => .mk slots' next
    | none =>
      match next with
      | some nb => .mk slots (some (VirtualBucket.remove nb hash key))
      | none => .mk slots none

/-- Resizer (hash_map/mod.rs): destination bucket array plus chunk markers. -/
structure Resizer (K V : Type) where
  buckets : List (VirtualBucket K V)
  markers : List Nat

/-- Buckets (hash_map/mod.rs): the bucket array plus the nullable resizer cell. -/
structure Buckets (K V : Type) where
  buckets : List (VirtualBucket K V)
  resizer : Option (Resizer K V)

/-- HashMap (hash_map/mod.rs): the table cell plus the items counter. -/
structure HashMapState (K V : Type) where
  table : Buckets K V
  items : Nat

/-- hash_into: index of the bucket for a hash, hash & (len - 1). -/
def bucketsIdx (len hash : Nat) : Nat := hash &&& (len - 1)

/-- VirtualBucket::alloc(size): size default buckets. -/
def VirtualBucket.alloc (size : Nat) : List (VirtualBucket K V) :=
  List.replicate size emptyBucket

/-- Insert through hash_into on a bucket array: pick the bucket by hash, insert
into it, and write the updated bucket back. -/
def arrayInsert [DecidableEq K] (bs : List (VirtualBucket K V)) (hash : Nat) (key : K)
    (value : V) (isNew : Bool) (lf : ℚ) (depth : Int) :
    Option (List (VirtualBucket K V) × InsOut) :=
  ((bs.getD (bucketsIdx bs.length hash) emptyBucket).insert hash key value isNew
      lf depth).map
    (fun p => (bs.set (bucketsIdx bs.length hash) p.1, p.2))

/-- VirtualBucket::copy_to (virtual_bucket.rs lines 160-177) over the slots of
one source bucket: non-null entries with a present value are inserted into the
destination (is_new_item = false, load factor 0, depth 1; the code asserts the
insert is Ok, so an Err is a failed assertion, modelled none); tombstones count
into removed. -/
def copySlots [DecidableEq K] :
    List (Slot K V) → List (VirtualBucket K V) → Nat →
    Option (List (VirtualBucket K V) × Nat)
  | [], dst, removed => some (dst, removed)
  | s :: rest, dst, removed =>
    match s.entry with
    | none => copySlots rest dst removed
    | some e =>
      match e.value with
      | some v =>
        match arrayInsert dst s.hash e.key v false 0 1 with
        | some (dst', InsOut.ok _) => copySlots rest dst' removed
        | _ => none
      | none => copySlots rest dst (removed + 1)

/-- Buckets::copy_chunk_to (hash_map/mod.rs lines 165-173): copy the source
buckets with the given indices, accumulating the removed count. -/
def copyBuckets [DecidableEq K] (src : List (VirtualBucket K V)) :
    List Nat → List (VirtualBucket K V) → Nat →
    Option (List (VirtualBucket K V) × Nat)
  | [], dst, removed => some (dst, removed)
  | j :: rest, dst, removed =>
    match copySlots (src.getD j emptyBucket).slots dst removed with
    | some (dst', removed') => copyBuckets src rest dst' removed'
    | none => none

/-- The source bucket indices of chunk c: lower..upper of copy_chunk_to. -/
def chunkIndices (c len : Nat) : List Nat :=
  List.range' (c * CHUNK_SIZE) (min (c * CHUNK_SIZE + CHUNK_SIZE) len - c * CHUNK_SIZE)

/-- The marker loop of resize_with_pending_update (hash_map/mod.rs lines
199-207), single-threaded: each marker equal to 0 is claimed (CAS 0 -> 1
succeeds), its chunk is copied, the removed count is subtracted from items, and
the marker is set to 2; other markers are skipped. Returns the markers after the
pass, the destination, and items. -/
def chunkPass [DecidableEq K] (src : List (VirtualBucket K V)) :
    List Nat → Nat → List (VirtualBucket K V) → Nat →
    Option (List Nat × List (VirtualBucket K V) × Nat)
  | [], _, dst, items => some ([], dst, items)
  | m :: rest, c, dst, items =>
    if m = 0 then
      match copyBuckets src (chunkIndices c src.length) dst 0 with
      | some (dst', removed) =>
        (chunkPass src rest (c + 1) dst' (wrapSub64 items removed)).map
          (fun r => (2 :: r.1, r.2))
      | none => none
    else
      (chunkPass src rest (c + 1) dst items).map (fun r => (m :: r.1, r.2))

/-- PendingUpdate (hash_map/mod.rs lines 158-162). -/
inductive PendingUpdate (K V : Type) where
  | reinsert (key : K) (value : V)
  | insert (key : K) (value : V)
  | remove (key : K)

/-- Resizer::new(size, old_size): destination of the given size, one zero marker
per CHUNK_SIZE source buckets rounded up. -/
def Resizer.new (size oldSize : Nat) : Resizer K V :=
  ⟨VirtualBucket.alloc size, List.replicate ((oldSize + CHUNK_SIZE - 1) / CHUNK_SIZE) 0⟩

/-- Buckets::resize_with_pending_update (hash_map/mod.rs lines 175-216),
single-threaded: apply the pending update to the destination bucket chosen by
hash (an Err from the Insert case is the panic, an Err from the Reinsert case is
the failed assert: both none), run the marker pass, and if every marker then
reads 2, return a new Buckets wrapping the destination with no resizer.
The result is (the optional new Buckets, the resizer with its markers after the
pass, items). -/
def resizeWithPendingUpdate [DecidableEq K] (oldTable : Buckets K V) (rz : Resizer K V)
    (hash : Nat) (upd : PendingUpdate K V) (items : Nat) :
    Option (Option (Buckets K V) × Resizer K V × Nat) :=
  match
    (match upd with
     | .insert key value =>
       match arrayInsert rz.buckets hash key value true 0 1 with
       | some (d, InsOut.ok true) => some (d, (items + 1) % U64)
       | some (d, InsOut.ok false) => some (d, items)
       | _ => none
     | .reinsert key value =>
       match arrayInsert rz.buckets hash key value true 0 1 with
       | some (d, InsOut.ok _) => some (d, items)
       | _ => none
     | .remove key =>
       some (rz.buckets.set (bucketsIdx rz.buckets.length hash)
         ((rz.buckets.getD (bucketsIdx rz.buckets.length hash) emptyBucket).remove
           hash key), items))
  with
  | none => none
  | some (d1, items1) =>
    match chunkPass oldTable.buckets rz.markers 0 d1 items1 with
    | none => none
    | some (markers2, d2, items2) =>
      if markers2.all (fun m => m = 2) then
        some (some ⟨d2, none⟩, ⟨d2, markers2⟩, items2)
      else
        some (none, ⟨d2, markers2⟩, items2)

/-- Modelled from the spec: AtomicArc::try_store is called on the resizer cell in
HashMap::insert (src/hash_map/mod.rs line 70) but is not defined under src/. Per
the spec it installs a fresh resizer via a CAS and ignores the store if another
thread already installed one: compare-exchange against the null state succeeds
exactly when the cell is still null. -/
def tryStoreResizer (cell : Option (Resizer K V)) (new : Resizer K V) :
    Option (Resizer K V) :=
  match cell with
  | none => some new
  | some r => some r

/-- Modelled from the spec: AtomicArc::try_store is called on the table cell in
HashMap::insert and HashMap::remove (src/hash_map/mod.rs lines 83 and 103) but is
not defined under src/. Per the spec the new table is installed via
compare-exchange against the table handle that was loaded; in the
single-threaded model the cell still holds exactly that handle (nothing else ran
since the load), so the compare-exchange succeeds and the cell holds new. -/
def tryStoreTable (new : Buckets K V) : Buckets K V := new

/-- HashMap::hash (hash_map/mod.rs lines 31-38): hash 0 is replaced by 1. -/
def hashOf (hf : K → Nat) (key : K) : Nat :=
  match hf key with
  | 0 => 1
  | h => h

/-- HashMap::new: one bucket, no resizer, zero items. -/
def mapNew : HashMapState K V := ⟨⟨VirtualBucket.alloc 1, none⟩, 0⟩

/-- HashMap::insert (hash_map/mod.rs lines 40-85), single-threaded. -/
def mapInsert [DecidableEq K] (hf : K → Nat) (s : HashMapState K V) (key : K)
    (value : V) : Option (HashMapState K V) :=
  let table := s.table
  let hash := hashOf hf key
  let lf : ℚ := (s.items : ℚ) / ((table.buckets.length * N : Nat) : ℚ)
  match arrayInsert table.buckets hash key value true lf 1 with
  | none => none
  | some (bs, InsOut.ok inserted) =>
    let items1 := if inserted then (s.items + 1) % U64 else s.items
    match table.resizer with
    | none => some ⟨⟨bs, none⟩, items1⟩
    | some rz =>
      match resizeWithPendingUpdate ⟨bs, some rz⟩ rz hash (.reinsert key value)
          items1 with
      | none => none
      | some (some nt, _, items2) => some ⟨tryStoreTable nt, items2⟩
      | some (none, rz2, items2) => some ⟨⟨bs, some rz2⟩, items2⟩
  | some (bs, InsOut.resizeNeeded) =>
    match tryStoreResizer table.resizer
        (Resizer.new (2 * table.buckets.length) table.buckets.length) with
    | some rz =>
      match resizeWithPendingUpdate ⟨bs, some rz⟩ rz hash (.insert key value)
          s.items with
      | none => none
      | some (some nt, _, items2) => some ⟨tryStoreTable nt, items2⟩
      | some (none, rz2, items2) => some ⟨⟨bs, some rz2⟩, items2⟩
    | none => none

/-- HashMap::remove (hash_map/mod.rs lines 87-106), single-threaded. -/
def mapRemove [DecidableEq K] (hf : K → Nat) (s : HashMapState K V) (key : K) :
    Option (HashMapState K V) :=
  let table := s.table
  let hash := hashOf hf key
  let bs := table.buckets.set (bucketsIdx table.buckets.length hash)
    ((table.buckets.getD (bucketsIdx table.buckets.length hash) emptyBucket).remove
      hash key)
  match table.resizer with
  | none => some ⟨⟨bs, none⟩, s.items⟩
  | some rz =>
    match resizeWithPendingUpdate ⟨bs, some rz⟩ rz hash (.remove key) s.items with
    | none => none
    | some (some nt, _, items2) => some ⟨tryStoreTable nt, items2⟩
    | some (none, rz2, items2) => some ⟨⟨bs, some rz2⟩, items2⟩

/-- HashMap::get (hash_map/mod.rs lines 108-112). -/
def mapGet [DecidableEq K] (hf : K → Nat) (s : HashMapState K V) (key : K) :
    Option V :=
  let hash := hashOf hf key
  (s.table.buckets.getD (bucketsIdx s.table.buckets.length hash) emptyBucket).get
    hash key

/-- A client operation on the map. -/
inductive MapOp (K V : Type) where
  | ins (key : K) (value : V)
  | rem (key : K)

/-- Run a list of operations from a state; none if any of them panics. -/
def runOpsFrom [DecidableEq K] (hf : K → Nat) (s : HashMapState K V) :
    List (MapOp K V) → Option (HashMapState K V)
  | [] => some s
  | op :: rest =>
    match
      (match op with
       | .ins k v => mapInsert hf s k v
       | .rem k => mapRemove hf s k)
    with
    | some s2 => runOpsFrom hf s2 rest
    | none => none

/-- A single-threaded execution: run a list of operations from HashMap::new. -/
def runOps [DecidableEq K] (hf : K → Nat) (ops : List (MapOp K V)) :
    Option (HashMapState K V) :=
  runOpsFrom hf mapNew ops

/-! ## Helper lemmas about lists -/

theorem getD_set_self {α : Type} (l : List α) (i : Nat) (a d : α) (h : i < l.length) :
    (l.set i a).getD i d = a := by
  simp [List.getD_eq_getElem?_getD, List.getElem?_set_self h]

theorem getD_set_ne {α : Type} (l : List α) (i j : Nat) (a d : α) (h : i ≠ j) :
    (l.set i a).getD j d = l.getD j d := by
  simp [List.getD_eq_getElem?_getD, List.getElem?_set_ne h]

theorem bucketsIdx_lt (len hash : Nat) (h : 0 < len) : bucketsIdx len hash < len := by
  have := Nat.and_le_right (n := hash) (m := len - 1)
  unfold bucketsIdx
  omega

/-! ## The tracking predicate

A slot rejects the probe (hash, key) when neither the insert loop nor the
get/remove scans can stop at it: an empty slot whose hash field is neither 0 nor
the probe hash, or an occupied slot with a different hash or a different key. -/

def SlotRejects [DecidableEq K] (s : Slot K V) (hash : Nat) (key : K) : Prop :=
  match s.entry with
  | none => s.hash ≠ 0 ∧ s.hash ≠ hash
  | some e => s.hash ≠ hash ∨ e.key ≠ key

theorem slotRejects_none [DecidableEq K] {s : Slot K V} {hash : Nat} {key : K}
    (hse : s.entry = none) :
    SlotRejects s hash key ↔ (s.hash ≠ 0 ∧ s.hash ≠ hash) := by
  unfold SlotRejects
  rw [hse]

theorem slotRejects_some [DecidableEq K] {s : Slot K V} {hash : Nat} {key : K}
    {e : Entry K V} (hse : s.entry = some e) :
    SlotRejects s hash key ↔ (s.hash ≠ hash ∨ e.key ≠ key) := by
  unfold SlotRejects
  rw [hse]

instance [DecidableEq K] (s : Slot K V) (hash : Nat) (key : K) :
    Decidable (SlotRejects s hash key) :=
  match hse : s.entry with
  | none => decidable_of_iff _ (slotRejects_none hse).symm
  | some e => decidable_of_iff _ (slotRejects_some hse).symm

/-- The slot list tracks (hash, key) to the live value v: every slot before the
first full match rejects the probe, and the first match is an entry with key
`key` whose value cell holds some v. -/
def TracksSlots [DecidableEq K] (hash : Nat) (key : K) (v : V) :
    List (Slot K V) → Prop
  | [] => False
  | s :: rest =>
    (s.hash = hash ∧ ∃ e, s.entry = some e ∧ e.key = key ∧ e.value = some v) ∨
    (SlotRejects s hash key ∧ TracksSlots hash key v rest)

/-- The bucket chain tracks (hash, key) to the live value v: the first match in
chain traversal order holds some v and every slot encountered before it rejects
the probe. -/
def TracksB [DecidableEq K] (hash : Nat) (key : K) (v : V) : VirtualBucket K V → Prop
  | .mk slots none => TracksSlots hash key v slots
  | .mk slots (some nb) =>
    TracksSlots hash key v slots ∨
    ((∀ s ∈ slots, SlotRejects s hash key) ∧ TracksB hash key v nb)

/-! ## Slot-level lemmas -/

section SlotLemmas

variable {K V : Type} [DecidableEq K]

/-- A rejecting slot list is invisible to the get scan. -/
theorem rejects_getSlots_none (hash : Nat) (key : K) (sl : List (Slot K V))
    (hrej : ∀ s ∈ sl, SlotRejects s hash key) :
    getSlots hash key sl = none := by
  induction sl with
  | nil => rfl
  | cons s rest ih =>
    have hs := hrej s (List.mem_cons_self s rest)
    have hrest : ∀ t ∈ rest, SlotRejects t hash key :=
      fun t ht => hrej t (List.mem_cons_of_mem s ht)
    obtain ⟨sh, se⟩ := s
    rcases se with _ | e
    · simp only [getSlots]
      exact ih hrest
    · simp only [SlotRejects] at hs
      simp only [getSlots]
      rw [if_neg (by tauto)]
      exact ih hrest

/-- The insert slot loop fails exactly on an all-rejecting slot list. -/
theorem insertSlots_none_iff (hash : Nat) (key : K) (v : V) (isNew : Bool)
    (sl : List (Slot K V)) :
    insertSlots hash key v isNew sl = none ↔ ∀ s ∈ sl, SlotRejects s hash key := by
  induction sl with
  | nil => simp [insertSlots]
  | cons s rest ih =>
    obtain ⟨sh, se⟩ := s
    rcases se with _ | e
    · simp only [insertSlots]
      constructor
      · intro h
        split at h
        · exact absurd h (by simp)
        next hcond =>
          intro t ht
          rcases List.mem_cons.mp ht with rfl | ht
          · simp only [SlotRejects]
            tauto
          · rcases hmap : insertSlots hash key v isNew rest with _ | p
            · exact (ih.mp hmap) t ht
            · rw [hmap] at h
              exact absurd h (by simp)
      · intro hrej
        have hs := hrej _ (List.mem_cons_self _ rest)
        simp only [SlotRejects] at hs
        rw [if_neg (by tauto)]
        rw [Option.map_eq_none']
        exact ih.mpr fun t ht => hrej t (List.mem_cons_of_mem _ ht)
    · simp only [insertSlots]
      constructor
      · intro h
        split at h
        · split at h <;> exact absurd h (by simp)
        next hcond =>
          intro t ht
          rcases List.mem_cons.mp ht with rfl | ht
          · simp only [SlotRejects]
            tauto
          · rcases hmap : insertSlots hash key v isNew rest with _ | p
            · exact (ih.mp hmap) t ht
            · rw [hmap] at h
              exact absurd h (by simp)
      · intro hrej
        have hs := hrej _ (List.mem_cons_self _ rest)
        simp only [SlotRejects] at hs
        rw [if_neg (by tauto)]
        rw [Option.map_eq_none']
        exact ih.mpr fun t ht => hrej t (List.mem_cons_of_mem _ ht)

/-- A tracked slot list yields some v under the get scan. -/
theorem tracksSlots_get (hash : Nat) (key : K) (v : V) (sl : List (Slot K V))
    (h : TracksSlots hash key v sl) : getSlots hash key sl = some (some v) := by
  induction sl with
  | nil => exact absurd h (by rw [TracksSlots]; exact not_false)
  | cons s rest ih =>
    rw [TracksSlots] at h
    obtain ⟨sh, se⟩ := s
    rcases h with ⟨hh, e, hse, hk, hv⟩ | ⟨hrej, ht⟩
    · simp only [Slot.entry] at hse
      subst hse
      simp only [getSlots, Slot.hash] at *
      rw [if_pos ⟨hh, hk⟩, hv]
    · rcases se with _ | e
      · simp only [getSlots]
        exact ih ht
      · simp only [SlotRejects] at hrej
        simp only [getSlots]
        rw [if_neg (by tauto)]
        exact ih ht

/-- A true-insert that returns Ok leaves the slot list tracking (hash, key) to
the inserted value, whatever the slot list held before. -/
theorem insertSlots_true_tracks (hash : Nat) (key : K) (v : V)
    (sl sl' : List (Slot K V)) (ins : Bool)
    (h : insertSlots hash key v true sl = some (sl', ins)) :
    TracksSlots hash key v sl' := by
  induction sl generalizing sl' ins with
  | nil => exact absurd h (by simp [insertSlots])
  | cons s rest ih =>
    obtain ⟨sh, se⟩ := s
    rcases se with _ | e
    · simp only [insertSlots] at h
      split at h
      next hcond =>
        simp only [Option.some_inj, Prod.mk.injEq] at h
        obtain ⟨h1, -⟩ := h
        subst h1
        rw [TracksSlots]
        left
        exact ⟨rfl, ⟨key, some v⟩, rfl, rfl, rfl⟩
      next hcond =>
        rw [Option.map_eq_some'] at h
        obtain ⟨⟨rest', ins'⟩, hmap, hfa⟩ := h
        simp only [Prod.mk.injEq] at hfa
        obtain ⟨h1, -⟩ := hfa
        subst h1
        rw [TracksSlots]
        right
        refine ⟨?_, ih _ _ hmap⟩
        simp only [SlotRejects]
        tauto
    · simp only [insertSlots] at h
      split at h
      next hcond =>
        simp only [Option.some_inj, Prod.mk.injEq] at h
        obtain ⟨h1, -⟩ := h
        subst h1
        rw [TracksSlots]
        left
        exact ⟨hcond.1, { e with value := some v }, rfl, hcond.2, rfl⟩
      next hcond =>
        rw [Option.map_eq_some'] at h
        obtain ⟨⟨rest', ins'⟩, hmap, hfa⟩ := h
        simp only [Prod.mk.injEq] at hfa
        obtain ⟨h1, -⟩ := hfa
        subst h1
        rw [TracksSlots]
        right
        refine ⟨?_, ih _ _ hmap⟩
        simp only [SlotRejects]
        tauto

/-- A false-insert (the resize-copy path) preserves tracking of any (hash, key):
it can neither overwrite the tracked value nor install a duplicate in front of
it. -/
theorem insertSlots_false_preserves (hash : Nat) (key : K) (v : V)
    (h2 : Nat) (k2 : K) (v2 : V) (sl sl' : List (Slot K V)) (ins : Bool)
    (ht : TracksSlots hash key v sl)
    (h : insertSlots h2 k2 v2 false sl = some (sl', ins)) :
    TracksSlots hash key v sl' := by
  induction sl generalizing sl' ins with
  | nil => exact absurd ht (by rw [TracksSlots]; exact not_false)
  | cons s rest ih =>
    rw [TracksSlots] at ht
    obtain ⟨sh, se⟩ := s
    rcases ht with ⟨hh, e, hse, hk, hv⟩ | ⟨hrej, ht'⟩
    · simp only [Slot.entry] at hse
      subst hse
      simp only [Slot.hash] at hh
      subst hh
      simp only [insertSlots] at h
      split at h
      next hcond =>
        -- the tracked slot also matches (h2, k2); is_new_item is false: no change
        simp only [Option.some_inj, Prod.mk.injEq] at h
        obtain ⟨h1, -⟩ := h
        subst h1
        rw [TracksSlots]
        left
        exact ⟨rfl, e, rfl, hk, hv⟩
      next hcond =>
        -- the tracked slot is skipped; only slots after it change
        rw [Option.map_eq_some'] at h
        obtain ⟨⟨rest', ins'⟩, hmap, hfa⟩ := h
        simp only [Prod.mk.injEq] at hfa
        obtain ⟨h1, -⟩ := hfa
        subst h1
        rw [TracksSlots]
        left
        exact ⟨rfl, e, rfl, hk, hv⟩
    · simp only [SlotRejects] at hrej
      rcases se with _ | e
      · simp only [insertSlots] at h
        split at h
        next hcond =>
          -- install of (h2, k2) into this empty slot; since the slot rejects
          -- (hash, key), its hash is neither 0 nor hash, so h2 = sh ≠ hash
          have hsh2 : sh = h2 := by tauto
          simp only [Option.some_inj, Prod.mk.injEq] at h
          obtain ⟨h1, -⟩ := h
          subst h1
          rw [TracksSlots]
          right
          refine ⟨?_, ht'⟩
          simp only [SlotRejects]
          left
          omega
        next hcond =>
          rw [Option.map_eq_some'] at h
          obtain ⟨⟨rest', ins'⟩, hmap, hfa⟩ := h
          simp only [Prod.mk.injEq] at hfa
          obtain ⟨h1, -⟩ := hfa
          subst h1
          rw [TracksSlots]
          right
          refine ⟨?_, ih _ _ ht' hmap⟩
          simp only [SlotRejects]
          tauto
      · simp only [insertSlots] at h
        split at h
        next hcond =>
          -- store into an entry with key k2; the slot rejects (hash, key), and
          -- neither its hash nor its key changes
          simp only [Option.some_inj, Prod.mk.injEq] at h
          obtain ⟨h1, -⟩ := h
          subst h1
          rw [TracksSlots]
          right
          refine ⟨?_, ht'⟩
          simp only [SlotRejects]
          simp only [Slot.hash, Slot.entry] at hrej ⊢
          tauto
        next hcond =>
          rw [Option.map_eq_some'] at h
          obtain ⟨⟨rest', ins'⟩, hmap, hfa⟩ := h
          simp only [Prod.mk.injEq] at hfa
          obtain ⟨h1, -⟩ := hfa
          subst h1
          rw [TracksSlots]
          right
          refine ⟨?_, ih _ _ ht' hmap⟩
          simp only [SlotRejects]
          tauto

/-- A false-insert preserves all-rejection of (hash, key). -/
theorem insertSlots_false_rejects (hash : Nat) (key : K)
    (h2 : Nat) (k2 : K) (v2 : V) (sl sl' : List (Slot K V)) (ins : Bool)
    (hrej : ∀ s ∈ sl, SlotRejects s hash key)
    (h : insertSlots h2 k2 v2 false sl = some (sl', ins)) :
    ∀ s ∈ sl', SlotRejects s hash key := by
  induction sl generalizing sl' ins with
  | nil => exact absurd h (by simp [insertSlots])
  | cons s rest ih =>
    have hs := hrej s (List.mem_cons_self s rest)
    have hrest : ∀ t ∈ rest, SlotRejects t hash key :=
      fun t ht => hrej t (List.mem_cons_of_mem s ht)
    obtain ⟨sh, se⟩ := s
    simp only [SlotRejects] at hs
    rcases se with _ | e
    · simp only [insertSlots] at h
      split at h
      next hcond =>
        have hsh2 : sh = h2 := by tauto
        simp only [Option.some_inj, Prod.mk.injEq] at h
        obtain ⟨h1, -⟩ := h
        subst h1
        intro t ht
        rcases List.mem_cons.mp ht with rfl | ht
        · simp only [SlotRejects]
          left
          omega
        · exact hrest t ht
      next hcond =>
        rw [Option.map_eq_some'] at h
        obtain ⟨⟨rest', ins'⟩, hmap, hfa⟩ := h
        simp only [Prod.mk.injEq] at hfa
        obtain ⟨h1, -⟩ := hfa
        subst h1
        intro t ht
        rcases List.mem_cons.mp ht with rfl | ht
        · simp only [SlotRejects]
          tauto
        · exact ih _ _ hrest hmap t ht
    · simp only [insertSlots] at h
      split at h
      next hcond =>
        simp only [Option.some_inj, Prod.mk.injEq] at h
        obtain ⟨h1, -⟩ := h
        subst h1
        intro t ht
        rcases List.mem_cons.mp ht with rfl | ht
        · simp only [SlotRejects]
          simp only [Slot.hash, Slot.entry] at hs ⊢
          tauto
        · exact hrest t ht
      next hcond =>
        rw [Option.map_eq_some'] at h
        obtain ⟨⟨rest', ins'⟩, hmap, hfa⟩ := h
        simp only [Prod.mk.injEq] at hfa
        obtain ⟨h1, -⟩ := hfa
        subst h1
        intro t ht
        rcases List.mem_cons.mp ht with rfl | ht
        · simp only [SlotRejects]
          tauto
        · exact ih _ _ hrest hmap t ht

/-- After the remove scan finds and tombstones a slot, the get scan returns the
null state. -/
theorem removeSlots_get (hash : Nat) (key : K) (sl sl' : List (Slot K V))
    (h : removeSlots hash key sl = some sl') :
    getSlots hash key sl' = some none := by
  induction sl generalizing sl' with
  | nil => exact absurd h (by simp [removeSlots])
  | cons s rest ih =>
    obtain ⟨sh, se⟩ := s
    rcases se with _ | e
    · simp only [removeSlots] at h
      rw [Option.map_eq_some'] at h
      obtain ⟨rest', hmap, h1⟩ := h
      subst h1
      simp only [getSlots]
      exact ih _ hmap
    · simp only [removeSlots] at h
      split at h
      next hcond =>
        simp only [Option.some_inj] at h
        subst h
        simp only [getSlots]
        rw [if_pos ⟨hcond.1, hcond.2⟩]
      next hcond =>
        rw [Option.map_eq_some'] at h
        obtain ⟨rest', hmap, h1⟩ := h
        subst h1
        simp only [getSlots]
        rw [if_neg hcond]
        exact ih _ hmap

/-- If the remove scan finds nothing, neither does the get scan. -/
theorem removeSlots_none_get (hash : Nat) (key : K) (sl : List (Slot K V))
    (h : removeSlots hash key sl = none) :
    getSlots hash key sl = none := by
  induction sl with
  | nil => rfl
  | cons s rest ih =>
    obtain ⟨sh, se⟩ := s
    rcases se with _ | e
    · simp only [removeSlots, Option.map_eq_none'] at h
      simp only [getSlots]
      exact ih h
    · simp only [removeSlots] at h
      split at h
      next hcond =>
        exact absurd h (by simp)
      next hcond =>
        rw [Option.map_eq_none'] at h
        simp only [getSlots]
        rw [if_neg hcond]
        exact ih h

end SlotLemmas

/-! ## Bucket-chain-level lemmas -/

section BucketLemmas

variable {K V : Type} [DecidableEq K]

/-- A tracked chain yields some v under get. -/
theorem tracksB_get (hash : Nat) (key : K) (v : V) :
    ∀ b : VirtualBucket K V, TracksB hash key v b →
      VirtualBucket.get b hash key = some v
  | .mk slots none, h => by
    rw [TracksB] at h
    rw [VirtualBucket.get, tracksSlots_get hash key v slots h]
  | .mk slots (some nb), h => by
    rw [TracksB] at h
    rcases h with h | ⟨hrej, ht⟩
    · rw [VirtualBucket.get, tracksSlots_get hash key v slots h]
    · rw [VirtualBucket.get, rejects_getSlots_none hash key slots hrej]
      exact tracksB_get hash key v nb ht

/-- A true-insert returning Ok leaves the chain tracking (hash, key) to the
inserted value, whatever the chain held before. -/
theorem insertFuel_true_tracks (hash : Nat) (key : K) (v : V) (lf : ℚ) :
    ∀ (fuel : Nat) (b : VirtualBucket K V) (depth : Int) (b' : VirtualBucket K V)
      (ins : Bool),
      insertFuel hash key v true lf fuel b depth = some (b', InsOut.ok ins) →
      TracksB hash key v b'
  | 0, _, _, _, _, h => absurd h (by simp [insertFuel])
  | fuel + 1, .mk slots next, depth, b', ins, h => by
    rcases hsl : insertSlots hash key v true slots with _ | ⟨slots', ins2⟩
    · simp only [insertFuel, VirtualBucket.slots, VirtualBucket.next, hsl] at h
      split at h
      · simp only [Option.some_inj, Prod.mk.injEq] at h
        exact absurd h.2 (by simp)
      · rcases next with _ | nb
        · exact Option.noConfusion h
        · have hmap : (insertFuel hash key v true lf fuel nb (depth + 1)).map
              (fun p => (VirtualBucket.mk slots (some p.1), p.2)) =
              some (b', InsOut.ok ins) := h
          rw [Option.map_eq_some'] at hmap
          obtain ⟨⟨nb', r⟩, hrec, hfa⟩ := hmap
          simp only [Prod.mk.injEq] at hfa
          obtain ⟨h1, h2⟩ := hfa
          subst h1
          subst h2
          rw [TracksB]
          right
          exact ⟨(insertSlots_none_iff hash key v true slots).mp hsl,
            insertFuel_true_tracks hash key v lf fuel _ _ _ _ hrec⟩
    · simp only [insertFuel, VirtualBucket.slots, VirtualBucket.next, hsl] at h
      simp only [Option.some_inj, Prod.mk.injEq] at h
      obtain ⟨h1, -⟩ := h
      subst h1
      rcases next with _ | nb
      · rw [TracksB]
        exact insertSlots_true_tracks hash key v slots slots' ins2 hsl
      · rw [TracksB]
        left
        exact insertSlots_true_tracks hash key v slots slots' ins2 hsl

/-- A false-insert (the resize-copy path) anywhere in the chain preserves
tracking of any (hash, key). -/
theorem insertFuel_false_preserves (hash : Nat) (key : K) (v : V)
    (h2 : Nat) (k2 : K) (v2 : V) (lf : ℚ) :
    ∀ (fuel : Nat) (b : VirtualBucket K V) (depth : Int) (b' : VirtualBucket K V)
      (r : InsOut),
      TracksB hash key v b →
      insertFuel h2 k2 v2 false lf fuel b depth = some (b', r) →
      TracksB hash key v b'
  | 0, _, _, _, _, _, h => absurd h (by simp [insertFuel])
  | fuel + 1, .mk slots next, depth, b', r, ht, h => by
    rcases hsl : insertSlots h2 k2 v2 false slots with _ | ⟨slots', ins2⟩
    · simp only [insertFuel, VirtualBucket.slots, VirtualBucket.next, hsl] at h
      split at h
      · simp only [Option.some_inj, Prod.mk.injEq] at h
        obtain ⟨h1, -⟩ := h
        subst h1
        exact ht
      · rcases next with _ | nb
        · exact Option.noConfusion h
        · have hmap : (insertFuel h2 k2 v2 false lf fuel nb (depth + 1)).map
              (fun p => (VirtualBucket.mk slots (some p.1), p.2)) = some (b', r) := h
          rw [Option.map_eq_some'] at hmap
          obtain ⟨⟨nb', r'⟩, hrec, hfa⟩ := hmap
          simp only [Prod.mk.injEq] at hfa
          obtain ⟨h1, -⟩ := hfa
          subst h1
          rw [TracksB] at ht
          rcases ht with htsl | ⟨hrej, htnb⟩
          · rw [TracksB]
            left
            exact htsl
          · rw [TracksB]
            right
            exact ⟨hrej,
              insertFuel_false_preserves hash key v h2 k2 v2 lf fuel _ _ _ _ htnb hrec⟩
    · simp only [insertFuel, VirtualBucket.slots, VirtualBucket.next, hsl] at h
      simp only [Option.some_inj, Prod.mk.injEq] at h
      obtain ⟨h1, -⟩ := h
      subst h1
      rcases next with _ | nb
      · rw [TracksB] at ht
        rw [TracksB]
        exact insertSlots_false_preserves hash key v h2 k2 v2 slots slots' ins2 ht hsl
      · rw [TracksB] at ht
        rcases ht with htsl | ⟨hrej, htnb⟩
        · rw [TracksB]
          left
          exact insertSlots_false_preserves hash key v h2 k2 v2 slots slots' ins2 htsl hsl
        · rw [TracksB]
          right
          exact ⟨insertSlots_false_rejects hash key h2 k2 v2 slots slots' ins2 hrej hsl,
            htnb⟩

/-- Any insert that (at any depth) returns ResizeNeeded was called with load
factor at least the resize threshold. -/
theorem insertFuel_err_lf (hash : Nat) (key : K) (v : V) (isNew : Bool) (lf : ℚ) :
    ∀ (fuel : Nat) (b : VirtualBucket K V) (depth : Int) (b' : VirtualBucket K V),
      insertFuel hash key v isNew lf fuel b depth = some (b', InsOut.resizeNeeded) →
      lf ≥ MIN_LOAD_FACTOR_FOR_RESIZE
  | 0, _, _, _, h => absurd h (by simp [insertFuel])
  | fuel + 1, .mk slots next, depth, b', h => by
    rcases hsl : insertSlots hash key v isNew slots with _ | ⟨slots', ins2⟩
    · simp only [insertFuel, VirtualBucket.slots, VirtualBucket.next, hsl] at h
      split at h
      next hcond => exact hcond.1
      next hcond =>
        rcases next with _ | nb
        · exact Option.noConfusion h
        · have hmap : (insertFuel hash key v isNew lf fuel nb (depth + 1)).map
              (fun p => (VirtualBucket.mk slots (some p.1), p.2)) =
              some (b', InsOut.resizeNeeded) := h
          rw [Option.map_eq_some'] at hmap
          obtain ⟨⟨nb', r'⟩, hrec, hfa⟩ := hmap
          simp only [Prod.mk.injEq] at hfa
          obtain ⟨-, hr2⟩ := hfa
          subst hr2
          exact insertFuel_err_lf hash key v isNew lf fuel _ _ _ hrec
    · simp only [insertFuel, VirtualBucket.slots, VirtualBucket.next, hsl] at h
      simp only [Option.some_inj, Prod.mk.injEq] at h
      exact absurd h.2 (by simp)

/-- After a remove, get on the same (hash, key) returns the null state, for any
chain contents. -/
theorem remove_get (hash : Nat) (key : K) :
    ∀ b : VirtualBucket K V,
      VirtualBucket.get (VirtualBucket.remove b hash key) hash key = none
  | .mk slots next => by
    rcases hr : removeSlots hash key slots with _ | slots'
    · rcases next with _ | nb
      · simp only [VirtualBucket.remove, hr]
        simp only [VirtualBucket.get, removeSlots_none_get hash key slots hr]
      · simp only [VirtualBucket.remove, hr]
        simp only [VirtualBucket.get, removeSlots_none_get hash key slots hr]
        exact remove_get hash key nb
    · rcases next with _ | nb <;>
      · simp only [VirtualBucket.remove, hr]
        simp only [VirtualBucket.get, removeSlots_get hash key slots slots' hr]

end BucketLemmas

/-! ## Bucket-array-level lemmas -/

section ArrayLemmas

variable {K V : Type} [DecidableEq K]

/-- The array tracks (hash, key) to v in the bucket that hash selects. -/
def TracksAt (bs : List (VirtualBucket K V)) (hash : Nat) (key : K) (v : V) : Prop :=
  TracksB hash key v (bs.getD (bucketsIdx bs.length hash) emptyBucket)

theorem arrayInsert_length (bs bs' : List (VirtualBucket K V)) (hash : Nat) (key : K)
    (value : V) (isNew : Bool) (lf : ℚ) (depth : Int) (r : InsOut)
    (h : arrayInsert bs hash key value isNew lf depth = some (bs', r)) :
    bs'.length = bs.length := by
  unfold arrayInsert at h
  rw [Option.map_eq_some'] at h
  obtain ⟨⟨b', r'⟩, -, hfa⟩ := h
  simp only [Prod.mk.injEq] at hfa
  obtain ⟨h1, -⟩ := hfa
  subst h1
  simp

theorem arrayInsert_true_tracks (bs bs' : List (VirtualBucket K V)) (hash : Nat)
    (key : K) (value : V) (lf : ℚ) (depth : Int) (ins : Bool) (hlen : 0 < bs.length)
    (h : arrayInsert bs hash key value true lf depth = some (bs', InsOut.ok ins)) :
    TracksAt bs' hash key value := by
  unfold arrayInsert at h
  rw [Option.map_eq_some'] at h
  obtain ⟨⟨b', r'⟩, hins, hfa⟩ := h
  simp only [Prod.mk.injEq] at hfa
  obtain ⟨h1, h2⟩ := hfa
  subst h1
  subst h2
  unfold TracksAt
  rw [List.length_set]
  rw [getD_set_self _ _ _ _ (bucketsIdx_lt _ _ hlen)]
  exact insertFuel_true_tracks hash key value lf _ _ _ _ _ hins

theorem arrayInsert_false_tracks (bs bs' : List (VirtualBucket K V)) (hash : Nat)
    (key : K) (v : V) (h2 : Nat) (k2 : K) (v2 : V) (lf : ℚ) (depth : Int)
    (r : InsOut) (hlen : 0 < bs.length) (ht : TracksAt bs hash key v)
    (h : arrayInsert bs h2 k2 v2 false lf depth = some (bs', r)) :
    TracksAt bs' hash key v := by
  unfold arrayInsert at h
  rw [Option.map_eq_some'] at h
  obtain ⟨⟨b', r'⟩, hins, hfa⟩ := h
  simp only [Prod.mk.injEq] at hfa
  obtain ⟨h1, -⟩ := hfa
  subst h1
  unfold TracksAt at ht ⊢
  rw [List.length_set]
  by_cases hij : bucketsIdx bs.length h2 = bucketsIdx bs.length hash
  · rw [hij] at hins ⊢
    rw [getD_set_self _ _ _ _ (bucketsIdx_lt _ hash hlen)]
    exact insertFuel_false_preserves hash key v h2 k2 v2 lf _ _ _ _ _ ht hins
  · rw [getD_set_ne _ _ _ _ _ hij]
    exact ht

theorem copySlots_len :
    ∀ (sl : List (Slot K V)) (dst : List (VirtualBucket K V)) (removed : Nat)
      (dst' : List (VirtualBucket K V)) (removed' : Nat),
      copySlots sl dst removed = some (dst', removed') → dst'.length = dst.length
  | [], dst, removed, dst', removed', h => by
    simp only [copySlots, Option.some_inj, Prod.mk.injEq] at h
    obtain ⟨h1, -⟩ := h
    subst h1
    rfl
  | s :: rest, dst, removed, dst', removed', h => by
    obtain ⟨sh, se⟩ := s
    rcases se with _ | e
    · simp only [copySlots] at h
      exact copySlots_len rest dst removed dst' removed' h
    · rcases hv : e.value with _ | v
      · simp only [copySlots, hv] at h
        exact copySlots_len rest dst (removed + 1) dst' removed' h
      · simp only [copySlots, hv] at h
        rcases hai : arrayInsert dst sh e.key v false 0 1 with _ | ⟨dst2, r⟩
        · rw [hai] at h
          exact absurd h (by simp)
        · rw [hai] at h
          rcases r with ins | _
          · rw [copySlots_len rest dst2 removed dst' removed' h]
            exact arrayInsert_length dst dst2 sh e.key v false 0 1 _ hai
          · exact absurd h (by simp)

theorem copySlots_tracks (hash : Nat) (key : K) (v : V) :
    ∀ (sl : List (Slot K V)) (dst : List (VirtualBucket K V)) (removed : Nat)
      (dst' : List (VirtualBucket K V)) (removed' : Nat),
      0 < dst.length → TracksAt dst hash key v →
      copySlots sl dst removed = some (dst', removed') → TracksAt dst' hash key v
  | [], dst, removed, dst', removed', hlen, ht, h => by
    simp only [copySlots, Option.some_inj, Prod.mk.injEq] at h
    obtain ⟨h1, -⟩ := h
    subst h1
    exact ht
  | s :: rest, dst, removed, dst', removed', hlen, ht, h => by
    obtain ⟨sh, se⟩ := s
    rcases se with _ | e
    · simp only [copySlots] at h
      exact copySlots_tracks hash key v rest dst removed dst' removed' hlen ht h
    · rcases hv : e.value with _ | v2
      · simp only [copySlots, hv] at h
        exact copySlots_tracks hash key v rest dst (removed + 1) dst' removed' hlen ht h
      · simp only [copySlots, hv] at h
        rcases hai : arrayInsert dst sh e.key v2 false 0 1 with _ | ⟨dst2, r⟩
        · rw [hai] at h
          exact absurd h (by simp)
        · rw [hai] at h
          rcases r with ins | _
          · have hlen2 : 0 < dst2.length := by
              rw [arrayInsert_length dst dst2 sh e.key v2 false 0 1 _ hai]
              exact hlen
            exact copySlots_tracks hash key v rest dst2 removed dst' removed' hlen2
              (arrayInsert_false_tracks dst dst2 hash key v sh e.key v2 0 1 _ hlen
                ht hai) h
          · exact absurd h (by simp)

theorem copyBuckets_len (src : List (VirtualBucket K V)) :
    ∀ (idxs : List Nat) (dst : List (VirtualBucket K V)) (removed : Nat)
      (dst' : List (VirtualBucket K V)) (removed' : Nat),
      copyBuckets src idxs dst removed = some (dst', removed') →
      dst'.length = dst.length
  | [], dst, removed, dst', removed', h => by
    simp only [copyBuckets, Option.some_inj, Prod.mk.injEq] at h
    obtain ⟨h1, -⟩ := h
    subst h1
    rfl
  | j :: rest, dst, removed, dst', removed', h => by
    simp only [copyBuckets] at h
    rcases hc : copySlots (VirtualBucket.slots (src.getD j emptyBucket)) dst removed
        with _ | ⟨dst2, removed2⟩
    · rw [hc] at h
      exact absurd h (by simp)
    · rw [hc] at h
      rw [copyBuckets_len src rest dst2 removed2 dst' removed' h]
      exact copySlots_len _ dst removed dst2 removed2 hc

theorem copyBuckets_tracks (hash : Nat) (key : K) (v : V)
    (src : List (VirtualBucket K V)) :
    ∀ (idxs : List Nat) (dst : List (VirtualBucket K V)) (removed : Nat)
      (dst' : List (VirtualBucket K V)) (removed' : Nat),
      0 < dst.length → TracksAt dst hash key v →
      copyBuckets src idxs dst removed = some (dst', removed') →
      TracksAt dst' hash key v
  | [], dst, removed, dst', removed', hlen, ht, h => by
    simp only [copyBuckets, Option.some_inj, Prod.mk.injEq] at h
    obtain ⟨h1, -⟩ := h
    subst h1
    exact ht
  | j :: rest, dst, removed, dst', removed', hlen, ht, h => by
    simp only [copyBuckets] at h
    rcases hc : copySlots (VirtualBucket.slots (src.getD j emptyBucket)) dst removed
        with _ | ⟨dst2, removed2⟩
    · rw [hc] at h
      exact absurd h (by simp)
    · rw [hc] at h
      have hlen2 : 0 < dst2.length := by
        rw [copySlots_len _ dst removed dst2 removed2 hc]
        exact hlen
      exact copyBuckets_tracks hash key v src rest dst2 removed2 dst' removed' hlen2
        (copySlots_tracks hash key v _ dst removed dst2 removed2 hlen ht hc) h

theorem chunkPass_shape (src : List (VirtualBucket K V)) :
    ∀ (ms : List Nat) (c : Nat) (dst : List (VirtualBucket K V)) (items : Nat)
      (ms' : List Nat) (dst' : List (VirtualBucket K V)) (items' : Nat),
      chunkPass src ms c dst items = some (ms', dst', items') →
      ms' = ms.map (fun m => if m = 0 then 2 else m) ∧ dst'.length = dst.length
  | [], c, dst, items, ms', dst', items', h => by
    simp only [chunkPass, Option.some_inj, Prod.mk.injEq] at h
    obtain ⟨h1, h2, h3⟩ := h
    subst h1
    subst h2
    exact ⟨rfl, rfl⟩
  | m :: rest, c, dst, items, ms', dst', items', h => by
    simp only [chunkPass] at h
    split at h
    next hm =>
      subst hm
      rcases hc : copyBuckets src (chunkIndices c src.length) dst 0
          with _ | ⟨dst2, removed⟩
      · rw [hc] at h
        exact absurd h (by simp)
      · rw [hc] at h
        rw [Option.map_eq_some'] at h
        obtain ⟨⟨ms2, dst3, items3⟩, hrec, hfa⟩ := h
        obtain ⟨hshape, hlen⟩ :=
          chunkPass_shape src rest (c + 1) dst2 (wrapSub64 items removed) ms2 dst3
            items3 hrec
        simp only [Prod.mk.injEq] at hfa
        obtain ⟨h1, h2, h3⟩ := hfa
        subst h1
        subst h2
        refine ⟨by simp [hshape], ?_⟩
        rw [hlen]
        exact copyBuckets_len src _ dst 0 dst2 removed hc
    next hm =>
      rw [Option.map_eq_some'] at h
      obtain ⟨⟨ms2, dst3, items3⟩, hrec, hfa⟩ := h
      obtain ⟨hshape, hlen⟩ :=
        chunkPass_shape src rest (c + 1) dst items ms2 dst3 items3 hrec
      simp only [Prod.mk.injEq] at hfa
      obtain ⟨h1, h2, h3⟩ := hfa
      subst h1
      subst h2
      exact ⟨by simp [hshape, if_neg hm], hlen⟩

theorem chunkPass_tracks (hash : Nat) (key : K) (v : V)
    (src : List (VirtualBucket K V)) :
    ∀ (ms : List Nat) (c : Nat) (dst : List (VirtualBucket K V)) (items : Nat)
      (ms' : List Nat) (dst' : List (VirtualBucket K V)) (items' : Nat),
      0 < dst.length → TracksAt dst hash key v →
      chunkPass src ms c dst items = some (ms', dst', items') →
      TracksAt dst' hash key v
  | [], c, dst, items, ms', dst', items', hlen, ht, h => by
    simp only [chunkPass, Option.some_inj, Prod.mk.injEq] at h
    obtain ⟨-, h2, -⟩ := h
    subst h2
    exact ht
  | m :: rest, c, dst, items, ms', dst', items', hlen, ht, h => by
    simp only [chunkPass] at h
    split at h
    next hm =>
      rcases hc : copyBuckets src (chunkIndices c src.length) dst 0
          with _ | ⟨dst2, removed⟩
      · rw [hc] at h
        exact absurd h (by simp)
      · rw [hc] at h
        rw [Option.map_eq_some'] at h
        obtain ⟨⟨ms2, dst3, items3⟩, hrec, hfa⟩ := h
        simp only [Prod.mk.injEq] at hfa
        obtain ⟨-, h2, -⟩ := hfa
        subst h2
        have hlen2 : 0 < dst2.length := by
          rw [copyBuckets_len src _ dst 0 dst2 removed hc]
          exact hlen
        exact chunkPass_tracks hash key v src rest (c + 1) dst2
          (wrapSub64 items removed) ms2 dst3 items3 hlen2
          (copyBuckets_tracks hash key v src _ dst 0 dst2 removed hlen ht hc) hrec
    next hm =>
      rw [Option.map_eq_some'] at h
      obtain ⟨⟨ms2, dst3, items3⟩, hrec, hfa⟩ := h
      simp only [Prod.mk.injEq] at hfa
      obtain ⟨-, h2, -⟩ := hfa
      subst h2
      exact chunkPass_tracks hash key v src rest (c + 1) dst items ms2 dst3 items3
        hlen ht hrec

end ArrayLemmas

/-! ## Resize- and map-level lemmas -/

section MapLemmas

variable {K V : Type} [DecidableEq K]

/-- The tail of resize_with_pending_update (marker pass and final check) on an
all-zero marker array: the table install always happens, the destination is what
the resizer now holds, and tracking of the pending key is preserved. -/
theorem resize_tail_some (oldT : Buckets K V) (ms : List Nat)
    (d1 : List (VirtualBucket K V)) (items1 : Nat) (res : Option (Buckets K V))
    (rz2 : Resizer K V) (items2 : Nat) (hash : Nat) (key : K) (value : V)
    (hzero : ∀ m ∈ ms, m = 0) (hlen : 0 < d1.length)
    (htr : TracksAt d1 hash key value)
    (h : (match chunkPass oldT.buckets ms 0 d1 items1 with
          | none => none
          | some (markers2, d2, items2') =>
            if markers2.all (fun m => m = 2) then
              some (some (⟨d2, none⟩ : Buckets K V), (⟨d2, markers2⟩ : Resizer K V),
                items2')
            else some (none, ⟨d2, markers2⟩, items2')) = some (res, rz2, items2)) :
    res = some ⟨rz2.buckets, none⟩ ∧ rz2.buckets.length = d1.length ∧
      TracksAt rz2.buckets hash key value := by
  rcases hcp : chunkPass oldT.buckets ms 0 d1 items1 with _ | ⟨markers2, d2, items2'⟩
  · simp only [hcp] at h
    exact Option.noConfusion h
  · simp only [hcp] at h
    obtain ⟨hshape, hlen2⟩ :=
      chunkPass_shape oldT.buckets ms 0 d1 items1 markers2 d2 items2' hcp
    have hall : markers2.all (fun m => m = 2) = true := by
      rw [hshape, List.all_eq_true]
      intro x hx
      rw [List.mem_map] at hx
      obtain ⟨m, hm, rfl⟩ := hx
      rw [hzero m hm]
      simp
    rw [if_pos hall] at h
    simp only [Option.some_inj, Prod.mk.injEq] at h
    obtain ⟨h1, h2, -⟩ := h
    subst h1
    subst h2
    exact ⟨rfl, hlen2,
      chunkPass_tracks hash key value oldT.buckets ms 0 d1 items1 markers2 d2 items2'
        hlen htr hcp⟩

/-- A resize driven by a pending Insert, starting from an all-zero marker array,
installs the new table: it returns a new Buckets wrapping the destination, with
no resizer, and the destination tracks the pending key to the pending value. -/
theorem resize_insert_some (oldT : Buckets K V) (rz : Resizer K V) (hash : Nat)
    (key : K) (value : V) (items : Nat) (res : Option (Buckets K V))
    (rz2 : Resizer K V) (items2 : Nat) (hlen : 0 < rz.buckets.length)
    (hzero : ∀ m ∈ rz.markers, m = 0)
    (h : resizeWithPendingUpdate oldT rz hash (PendingUpdate.insert key value) items =
      some (res, rz2, items2)) :
    res = some ⟨rz2.buckets, none⟩ ∧ rz2.buckets.length = rz.buckets.length ∧
      TracksAt rz2.buckets hash key value := by
  rcases hai : arrayInsert rz.buckets hash key value true 0 1 with _ | ⟨d1, r⟩
  · simp only [resizeWithPendingUpdate, hai] at h
    exact absurd h (by simp)
  · have hd1len : d1.length = rz.buckets.length :=
      arrayInsert_length rz.buckets d1 hash key value true 0 1 _ hai
    rcases r with ins | _
    · have htr : TracksAt d1 hash key value :=
        arrayInsert_true_tracks rz.buckets d1 hash key value 0 1 ins hlen hai
      rcases ins
      · simp only [resizeWithPendingUpdate, hai] at h
        obtain ⟨h1, h2, h3⟩ := resize_tail_some oldT rz.markers d1 items res rz2
          items2 hash key value hzero (by omega) htr h
        exact ⟨h1, by omega, h3⟩
      · simp only [resizeWithPendingUpdate, hai] at h
        obtain ⟨h1, h2, h3⟩ := resize_tail_some oldT rz.markers d1 ((items + 1) % U64)
          res rz2 items2 hash key value hzero (by omega) htr h
        exact ⟨h1, by omega, h3⟩
    · simp only [resizeWithPendingUpdate, hai] at h
      exact absurd h (by simp)

/-- The single-threaded reachability invariant: the current table carries no
resizer (every resize completes and swaps the table within the call that
started it) and the bucket array is non-empty. -/
def Inv (s : HashMapState K V) : Prop :=
  s.table.resizer = none ∧ 0 < s.table.buckets.length

theorem inv_mapNew : Inv (mapNew : HashMapState K V) := by
  constructor
  · rfl
  · simp [mapNew, VirtualBucket.alloc]

/-- HashMap::insert on an invariant-satisfying state: get afterwards returns the
inserted value, and the invariant is preserved. -/
theorem mapInsert_get_inv (hf : K → Nat) (s s' : HashMapState K V) (key : K)
    (value : V) (hInv : Inv s) (h : mapInsert hf s key value = some s') :
    mapGet hf s' key = some value ∧ Inv s' := by
  obtain ⟨hres, hlen⟩ := hInv
  rcases hai : arrayInsert s.table.buckets (hashOf hf key) key value true
      ((s.items : ℚ) / ((s.table.buckets.length * N : Nat) : ℚ)) 1 with _ | ⟨bs, r⟩
  · simp only [mapInsert, hai] at h
    exact Option.noConfusion h
  · have hbslen : bs.length = s.table.buckets.length :=
      arrayInsert_length s.table.buckets bs (hashOf hf key) key value true _ 1 _ hai
    rcases r with ins | _
    · simp only [mapInsert, hai, hres] at h
      simp only [Option.some_inj] at h
      subst h
      have htr : TracksAt bs (hashOf hf key) key value :=
        arrayInsert_true_tracks s.table.buckets bs (hashOf hf key) key value _ 1 ins
          hlen hai
      refine ⟨?_, rfl, ?_⟩
      · simp only [mapGet]
        exact tracksB_get _ _ _ _ htr
      · show 0 < bs.length
        omega
    · simp only [mapInsert, hai, hres, tryStoreResizer] at h
      rcases hrez : resizeWithPendingUpdate ⟨bs, some (Resizer.new
          (2 * s.table.buckets.length) s.table.buckets.length)⟩
          (Resizer.new (2 * s.table.buckets.length) s.table.buckets.length)
          (hashOf hf key) (PendingUpdate.insert key value) s.items
          with _ | ⟨res, rz2, items2⟩
      · simp only [hrez] at h
        exact Option.noConfusion h
      · have hrzlen : 0 < (Resizer.new (2 * s.table.buckets.length)
            s.table.buckets.length : Resizer K V).buckets.length := by
          simp [Resizer.new, VirtualBucket.alloc]
          omega
        have hrzzero : ∀ m ∈ (Resizer.new (2 * s.table.buckets.length)
            s.table.buckets.length : Resizer K V).markers, m = 0 := by
          intro m hm
          simp only [Resizer.new] at hm
          exact List.eq_of_mem_replicate hm
        obtain ⟨hsome, hlen2, htr2⟩ := resize_insert_some _ _ _ _ _ _ _ _ _
          hrzlen hrzzero hrez
        simp only [hrez, hsome, tryStoreTable] at h
        simp only [Option.some_inj] at h
        subst h
        refine ⟨?_, rfl, ?_⟩
        · simp only [mapGet]
          exact tracksB_get _ _ _ _ htr2
        · simp only [Resizer.new, VirtualBucket.alloc, List.length_replicate] at hlen2
          show 0 < rz2.buckets.length
          omega

/-- HashMap::remove on an invariant-satisfying state: get afterwards returns the
null state, and the invariant is preserved. -/
theorem mapRemove_get_inv (hf : K → Nat) (s s' : HashMapState K V) (key : K)
    (hInv : Inv s) (h : mapRemove hf s key = some s') :
    mapGet hf s' key = none ∧ Inv s' := by
  obtain ⟨hres, hlen⟩ := hInv
  simp only [mapRemove, hres] at h
  simp only [Option.some_inj] at h
  subst h
  refine ⟨?_, rfl, by simp [List.length_set]; omega⟩
  simp only [mapGet, List.length_set]
  rw [getD_set_self _ _ _ _ (bucketsIdx_lt _ _ hlen)]
  exact remove_get _ _ _

theorem runOpsFrom_inv (hf : K → Nat) :
    ∀ (ops : List (MapOp K V)) (s s' : HashMapState K V),
      Inv s → runOpsFrom hf s ops = some s' → Inv s'
  | [], s, s', hInv, h => by
    simp only [runOpsFrom, Option.some_inj] at h
    subst h
    exact hInv
  | op :: rest, s, s', hInv, h => by
    rcases op with ⟨k, v⟩ | k
    · rcases hstep : mapInsert hf s k v with _ | s2
      · simp only [runOpsFrom, hstep] at h
        exact Option.noConfusion h
      · simp only [runOpsFrom, hstep] at h
        exact runOpsFrom_inv hf rest s2 s' (mapInsert_get_inv hf s s2 k v hInv hstep).2 h
    · rcases hstep : mapRemove hf s k with _ | s2
      · simp only [runOpsFrom, hstep] at h
        exact Option.noConfusion h
      · simp only [runOpsFrom, hstep] at h
        exact runOpsFrom_inv hf rest s2 s' (mapRemove_get_inv hf s s2 k hInv hstep).2 h

/-- Every state reached by a single-threaded execution satisfies the invariant. -/
theorem runOps_inv (hf : K → Nat) (ops : List (MapOp K V)) (s : HashMapState K V)
    (h : runOps hf ops = some s) : Inv s :=
  runOpsFrom_inv hf ops mapNew s inv_mapNew h

end MapLemmas

/-! ## Claims C5, C6, C7, C8 -/

section ClaimTheorems

variable {K V : Type} [DecidableEq K]

/-- Claim C5: in a single-threaded execution, after insert(K, V1) followed by
insert(K, V2) on the hash map (with no remove of K), get(K) returns a handle to
V2 — whether or not either insert triggers a resize. -/
theorem insert_insert_get (hf : K → Nat) (ops : List (MapOp K V))
    (s s1 s2 : HashMapState K V) (key : K) (v1 v2 : V)
    (hrun : runOps hf ops = some s)
    (h1 : mapInsert hf s key v1 = some s1)
    (h2 : mapInsert hf s1 key v2 = some s2) :
    mapGet hf s2 key = some v2 := by
  have hInv := runOps_inv hf ops s hrun
  have hInv1 := (mapInsert_get_inv hf s s1 key v1 hInv h1).2
  exact (mapInsert_get_inv hf s1 s2 key v2 hInv1 h2).1

def c5demoS : HashMapState Nat Nat := (runOps (fun _ => 1) []).getD mapNew

def c5demoS1 : HashMapState Nat Nat := (mapInsert (fun _ => 1) c5demoS 5 10).getD mapNew

def c5demoS2 : HashMapState Nat Nat := (mapInsert (fun _ => 1) c5demoS1 5 11).getD mapNew

/-- Claim C5 witness: a concrete double insert of key 5 with values 10 then 11. -/
theorem insert_insert_get_witness :
    runOps (fun _ => 1) ([] : List (MapOp Nat Nat)) = some c5demoS ∧
    mapInsert (fun _ => 1) c5demoS 5 10 = some c5demoS1 ∧
    mapInsert (fun _ => 1) c5demoS1 5 11 = some c5demoS2 ∧
    mapGet (fun _ => 1) c5demoS2 5 = some 11 :=
  ⟨rfl, rfl, rfl, insert_insert_get (fun _ => 1) [] c5demoS c5demoS1 c5demoS2 5 10 11
    rfl rfl rfl⟩

/-- Claim C6: in a single-threaded execution, after remove(K) on the hash map
with no subsequent insert(K, _), get(K) returns the null state. -/
theorem remove_then_get (hf : K → Nat) (ops : List (MapOp K V))
    (s s' : HashMapState K V) (key : K)
    (hrun : runOps hf ops = some s) (h : mapRemove hf s key = some s') :
    mapGet hf s' key = none :=
  (mapRemove_get_inv hf s s' key (runOps_inv hf ops s hrun) h).1

def c6demoS : HashMapState Nat Nat :=
  (runOps (fun _ => 1) [MapOp.ins 5 10]).getD mapNew

def c6demoS1 : HashMapState Nat Nat := (mapRemove (fun _ => 1) c6demoS 5).getD mapNew

/-- Claim C6 witness: insert key 5, remove it, and get the null state. -/
theorem remove_then_get_witness :
    runOps (fun _ => 1) [MapOp.ins 5 10] = some c6demoS ∧
    mapRemove (fun _ => 1) c6demoS 5 = some c6demoS1 ∧
    mapGet (fun _ => 1) c6demoS1 5 = none := by
  have h1 : runOps (fun _ => 1) [MapOp.ins 5 10] = some c6demoS := by rfl
  have h2 : mapRemove (fun _ => 1) c6demoS 5 = some c6demoS1 := by rfl
  exact ⟨h1, h2, remove_then_get (fun _ => 1) [MapOp.ins 5 10] c6demoS c6demoS1 5 h1 h2⟩

/-- One unfolding step of insertFuel. -/
theorem insertFuel_succ (hash : Nat) (key : K) (value : V) (isNew : Bool) (lf : ℚ)
    (fuel : Nat) (b : VirtualBucket K V) (depth : Int) :
    insertFuel hash key value isNew lf (fuel + 1) b depth =
      match insertSlots hash key value isNew b.slots with
      | some (slots', inserted) => some (.mk slots' b.next, InsOut.ok inserted)
      | none =>
        if lf ≥ MIN_LOAD_FACTOR_FOR_RESIZE ∧ depth ≥ DEPTH_TRESHOLD then
          some (b, InsOut.resizeNeeded)
        else
          match b.next with
          | some nb =>
            (insertFuel hash key value isNew lf fuel nb (depth + 1)).map
              (fun p => (.mk b.slots (some p.1), p.2))
          | none => none := rfl

/-- Inserting into a default (empty) bucket accepts at the first slot, with any
positive fuel. -/
theorem insertFuel_empty (hash : Nat) (key : K) (value : V) (isNew : Bool) (lf : ℚ)
    (fuel : Nat) (depth : Int) :
    insertFuel hash key value isNew lf (fuel + 1) (emptyBucket : VirtualBucket K V)
        depth =
      some (VirtualBucket.mk ({ hash := hash, entry := some ⟨key, some value⟩ } ::
        List.replicate 6 ⟨0, none⟩) none, InsOut.ok true) := by
  have hrep : (List.replicate N (⟨0, none⟩ : Slot K V)) =
      ⟨0, none⟩ :: List.replicate 6 ⟨0, none⟩ := rfl
  simp [insertFuel, emptyBucket, VirtualBucket.slots, VirtualBucket.next, hrep,
    insertSlots]

/-- Claim C7 (refuted — code bug): when all N = 7 slots of a virtual bucket
reject the probe and the resize condition (load_factor >= 0.5 and depth >= 1)
does not hold, the claim says insert ensures a next overflow bucket exists
(allocating one when next is null) and recurses into it with depth + 1. In the
code, with next null, the Ok arm of the installing compare_exchange rebinds
next_ptr to the returned previous value — null — so the assert on next_ptr
being non-null fails (virtual_bucket.rs lines 114, 119): insert aborts (none)
instead of recursing, while the recursion into a fresh default bucket that the
claim describes would return a result (second conjunct). -/
theorem insert_overflow_null_next_panics (slots : List (Slot K V)) (hash : Nat)
    (key : K) (value : V) (isNew : Bool) (lf : ℚ) (depth : Int)
    (hrej : ∀ s ∈ slots, SlotRejects s hash key)
    (hcond : ¬(lf ≥ MIN_LOAD_FACTOR_FOR_RESIZE ∧ depth ≥ DEPTH_TRESHOLD)) :
    (VirtualBucket.mk slots none).insert hash key value isNew lf depth = none ∧
    ((emptyBucket : VirtualBucket K V).insert hash key value isNew lf
        (depth + 1)).map
      (fun p => (VirtualBucket.mk slots (some p.1), p.2)) ≠ none := by
  have hsl : insertSlots hash key value isNew slots = none :=
    (insertSlots_none_iff hash key value isNew slots).mpr hrej
  constructor
  · unfold VirtualBucket.insert
    show insertFuel hash key value isNew lf
      ((chainLen (VirtualBucket.mk slots none) + 1) + 1)
      (VirtualBucket.mk slots none) depth = none
    rw [insertFuel_succ]
    simp only [VirtualBucket.slots, VirtualBucket.next, hsl]
    rw [if_neg hcond]
  · unfold VirtualBucket.insert
    show (insertFuel hash key value isNew lf
        (chainLen (emptyBucket : VirtualBucket K V) + 2) emptyBucket
        (depth + 1)).map
      (fun p => (VirtualBucket.mk slots (some p.1), p.2)) ≠ none
    rw [show chainLen (emptyBucket : VirtualBucket K V) = 1 from rfl]
    rw [show (1 : Nat) + 2 = 2 + 1 from rfl]
    rw [insertFuel_empty hash key value isNew lf 2 (depth + 1)]
    simp

def fullBucket7 : VirtualBucket Nat Nat :=
  .mk (List.replicate 7 ⟨5, some ⟨99, some 0⟩⟩) none

/-- Claim C7 witness: a bucket with null next whose seven slots are all occupied
by another key under another hash, probed with hash 1 and key 0 at load factor
0, depth 1: insert aborts on the failed assert instead of recursing into a
freshly installed overflow bucket. -/
theorem insert_overflow_null_next_panics_witness :
    (∀ s ∈ (List.replicate 7 (⟨5, some ⟨99, some 0⟩⟩ : Slot Nat Nat)),
      SlotRejects s 1 (0 : Nat)) ∧
    ¬((0 : ℚ) ≥ MIN_LOAD_FACTOR_FOR_RESIZE ∧ (1 : Int) ≥ DEPTH_TRESHOLD) ∧
    fullBucket7.insert 1 0 (0 : Nat) true 0 1 = none := by
  have h1 : ∀ s ∈ (List.replicate 7 (⟨5, some ⟨99, some 0⟩⟩ : Slot Nat Nat)),
      SlotRejects s 1 (0 : Nat) := by decide
  have hc : ¬((0 : ℚ) ≥ MIN_LOAD_FACTOR_FOR_RESIZE ∧ (1 : Int) ≥ DEPTH_TRESHOLD) := by
    norm_num [MIN_LOAD_FACTOR_FOR_RESIZE]
  exact ⟨h1, hc, (insert_overflow_null_next_panics
    (List.replicate 7 ⟨5, some ⟨99, some 0⟩⟩) 1 0 0 true 0 1 h1 hc).1⟩

/-- The tail of resize_with_pending_update (marker pass plus final check), fully
characterized: the markers after the pass, when a new Buckets is produced, and
its shape. -/
theorem resize_tail_character (oldT : Buckets K V) (ms : List Nat)
    (d1 : List (VirtualBucket K V)) (items1 : Nat) (res : Option (Buckets K V))
    (rz2 : Resizer K V) (items2 : Nat)
    (h : (match chunkPass oldT.buckets ms 0 d1 items1 with
          | none => none
          | some (markers2, d2, items2') =>
            if markers2.all (fun m => m = 2) then
              some (some (⟨d2, none⟩ : Buckets K V), (⟨d2, markers2⟩ : Resizer K V),
                items2')
            else some (none, ⟨d2, markers2⟩, items2')) = some (res, rz2, items2)) :
    rz2.markers = ms.map (fun m => if m = 0 then 2 else m) ∧
    ((∃ nb, res = some nb) ↔ (∀ m ∈ rz2.markers, m = 2)) ∧
    (∀ nb, res = some nb → nb.buckets = rz2.buckets ∧ nb.resizer = none) := by
  rcases hcp : chunkPass oldT.buckets ms 0 d1 items1 with _ | ⟨markers2, d2, items2'⟩
  · simp only [hcp] at h
    exact Option.noConfusion h
  · simp only [hcp] at h
    obtain ⟨hshape, -⟩ :=
      chunkPass_shape oldT.buckets ms 0 d1 items1 markers2 d2 items2' hcp
    rcases hall : markers2.all (fun m => m = 2) with _ | _
    · rw [if_neg (by rw [hall]; exact Bool.false_ne_true)] at h
      simp only [Option.some_inj, Prod.mk.injEq] at h
      obtain ⟨h1, h2, -⟩ := h
      subst h1
      subst h2
      refine ⟨hshape, ?_, ?_⟩
      · constructor
        · rintro ⟨nb, hnb⟩
          exact Option.noConfusion hnb
        · intro hforall
          exfalso
          rw [← Bool.not_eq_true] at hall
          rw [List.all_eq_true] at hall
          push_neg at hall
          obtain ⟨m, hm, hne⟩ := hall
          exact hne (by simp [hforall m hm])
      · intro nb hnb
        exact absurd hnb (by simp)
    · rw [if_pos hall] at h
      simp only [Option.some_inj, Prod.mk.injEq] at h
      obtain ⟨h1, h2, -⟩ := h
      subst h1
      subst h2
      refine ⟨hshape, ?_, ?_⟩
      · constructor
        · intro _
          rw [List.all_eq_true] at hall
          intro m hm
          simpa using hall m hm
        · intro _
          exact ⟨_, rfl⟩
      · intro nb hnb
        simp only [Option.some_inj] at hnb
        subst hnb
        exact ⟨rfl, rfl⟩

/-- resize_with_pending_update, fully characterized for every pending update. -/
theorem resize_character (oldT : Buckets K V) (rz : Resizer K V) (hash : Nat)
    (upd : PendingUpdate K V) (items : Nat) (res : Option (Buckets K V))
    (rz2 : Resizer K V) (items2 : Nat)
    (h : resizeWithPendingUpdate oldT rz hash upd items = some (res, rz2, items2)) :
    rz2.markers = rz.markers.map (fun m => if m = 0 then 2 else m) ∧
    ((∃ nb, res = some nb) ↔ (∀ m ∈ rz2.markers, m = 2)) ∧
    (∀ nb, res = some nb → nb.buckets = rz2.buckets ∧ nb.resizer = none) := by
  rcases upd with ⟨key, value⟩ | ⟨key, value⟩ | key
  · rcases hai : arrayInsert rz.buckets hash key value true 0 1 with _ | ⟨d1, r⟩
    · simp only [resizeWithPendingUpdate, hai] at h
      exact absurd h (by simp)
    · rcases r with ins | _
      · simp only [resizeWithPendingUpdate, hai] at h
        exact resize_tail_character oldT rz.markers d1 items res rz2 items2 h
      · simp only [resizeWithPendingUpdate, hai] at h
        exact absurd h (by simp)
  · rcases hai : arrayInsert rz.buckets hash key value true 0 1 with _ | ⟨d1, r⟩
    · simp only [resizeWithPendingUpdate, hai] at h
      exact absurd h (by simp)
    · rcases r with ins | _
      · rcases ins
        · simp only [resizeWithPendingUpdate, hai] at h
          exact resize_tail_character oldT rz.markers d1 items res rz2 items2 h
        · simp only [resizeWithPendingUpdate, hai] at h
          exact resize_tail_character oldT rz.markers d1 ((items + 1) % U64) res rz2
            items2 h
      · simp only [resizeWithPendingUpdate, hai] at h
        exact absurd h (by simp)
  · simp only [resizeWithPendingUpdate] at h
    exact resize_tail_character oldT rz.markers _ items res rz2 items2 h

/-- The marker pass turns exactly the unclaimed (0) markers into 2, so all
markers read 2 afterwards iff no marker was claimed-but-unfinished (1) before. -/
theorem map_all2_iff (ms : List Nat) (hm : ∀ m ∈ ms, m ≤ 2) :
    (∀ x ∈ ms.map (fun m => if m = 0 then 2 else m), x = 2) ↔
      (∀ m ∈ ms, m ≠ 1) := by
  constructor
  · intro h m hmem h1
    have h2 := h (if m = 0 then 2 else m) (List.mem_map_of_mem _ hmem)
    rw [h1] at h2
    simp at h2
  · intro h x hx
    rw [List.mem_map] at hx
    obtain ⟨m, hmem, rfl⟩ := hx
    have h1 := h m hmem
    have h2 := hm m hmem
    split
    · rfl
    · omega

/-- HashMap::insert replaces the table array only with a Buckets carrying no
resizer (one produced by a completed resize); otherwise the array object (and
hence its length) is unchanged. -/
theorem mapInsert_table_change (hf : K → Nat) (s s' : HashMapState K V) (key : K)
    (value : V) (h : mapInsert hf s key value = some s') :
    s'.table.buckets.length = s.table.buckets.length ∨ s'.table.resizer = none := by
  rcases hai : arrayInsert s.table.buckets (hashOf hf key) key value true
      ((s.items : ℚ) / ((s.table.buckets.length * N : Nat) : ℚ)) 1 with _ | ⟨bs, r⟩
  · simp only [mapInsert, hai] at h
    exact Option.noConfusion h
  · have hbslen := arrayInsert_length s.table.buckets bs (hashOf hf key) key value
      true _ 1 _ hai
    rcases r with ins | _
    · rcases hres : s.table.resizer with _ | rz
      · simp only [mapInsert, hai, hres, Option.some_inj] at h
        subst h
        exact Or.inr rfl
      · simp only [mapInsert, hai, hres] at h
        rcases hrez : resizeWithPendingUpdate ⟨bs, some rz⟩ rz (hashOf hf key)
            (PendingUpdate.reinsert key value)
            (if ins then (s.items + 1) % U64 else s.items)
            with _ | ⟨res, rz2, items2⟩
        · simp only [hrez] at h
          exact Option.noConfusion h
        · obtain ⟨-, -, hshape⟩ := resize_character _ _ _ _ _ _ _ _ hrez
          rcases res with _ | nt
          · simp only [hrez, Option.some_inj] at h
            subst h
            exact Or.inl hbslen
          · simp only [hrez, tryStoreTable, Option.some_inj] at h
            subst h
            exact Or.inr (hshape nt rfl).2
    · rcases hres : s.table.resizer with _ | rz0
      · simp only [mapInsert, hai, hres, tryStoreResizer] at h
        rcases hrez : resizeWithPendingUpdate
            ⟨bs, some (Resizer.new (2 * s.table.buckets.length)
              s.table.buckets.length)⟩
            (Resizer.new (2 * s.table.buckets.length) s.table.buckets.length)
            (hashOf hf key) (PendingUpdate.insert key value) s.items
            with _ | ⟨res, rz2, items2⟩
        · simp only [hrez] at h
          exact Option.noConfusion h
        · obtain ⟨-, -, hshape⟩ := resize_character _ _ _ _ _ _ _ _ hrez
          rcases res with _ | nt
          · simp only [hrez, Option.some_inj] at h
            subst h
            exact Or.inl hbslen
          · simp only [hrez, tryStoreTable, Option.some_inj] at h
            subst h
            exact Or.inr (hshape nt rfl).2
      · simp only [mapInsert, hai, hres, tryStoreResizer] at h
        rcases hrez : resizeWithPendingUpdate ⟨bs, some rz0⟩ rz0 (hashOf hf key)
            (PendingUpdate.insert key value) s.items with _ | ⟨res, rz2, items2⟩
        · simp only [hrez] at h
          exact Option.noConfusion h
        · obtain ⟨-, -, hshape⟩ := resize_character _ _ _ _ _ _ _ _ hrez
          rcases res with _ | nt
          · simp only [hrez, Option.some_inj] at h
            subst h
            exact Or.inl hbslen
          · simp only [hrez, tryStoreTable, Option.some_inj] at h
            subst h
            exact Or.inr (hshape nt rfl).2

/-- HashMap::remove replaces the table array only with a Buckets carrying no
resizer. -/
theorem mapRemove_table_change (hf : K → Nat) (s s' : HashMapState K V) (key : K)
    (h : mapRemove hf s key = some s') :
    s'.table.buckets.length = s.table.buckets.length ∨ s'.table.resizer = none := by
  rcases hres : s.table.resizer with _ | rz
  · simp only [mapRemove, hres, Option.some_inj] at h
    subst h
    exact Or.inr rfl
  · simp only [mapRemove, hres] at h
    rcases hrez : resizeWithPendingUpdate
        ⟨s.table.buckets.set (bucketsIdx s.table.buckets.length (hashOf hf key))
          ((s.table.buckets.getD (bucketsIdx s.table.buckets.length (hashOf hf key))
            emptyBucket).remove (hashOf hf key) key), some rz⟩ rz (hashOf hf key)
        (PendingUpdate.remove key) s.items with _ | ⟨res, rz2, items2⟩
    · simp only [hrez] at h
      exact Option.noConfusion h
    · obtain ⟨-, -, hshape⟩ := resize_character _ _ _ _ _ _ _ _ hrez
      rcases res with _ | nt
      · simp only [hrez, Option.some_inj] at h
        subst h
        exact Or.inl (by simp)
      · simp only [hrez, tryStoreTable, Option.some_inj] at h
        subst h
        exact Or.inr (hshape nt rfl).2

/-- Claim C8: resize_with_pending_update returns a new Buckets — wrapping the
resizer's destination array and carrying no resizer — exactly when every chunk
marker reads 2 after its copy pass (equivalently, when no marker was stuck at 1
before the pass, markers being 0, 1 or 2); and the map operations replace the
table array only with such a Buckets, so the table is never swapped for a table
with an uncopied chunk. -/
theorem resize_installs_only_fully_copied (oldT : Buckets K V) (rz : Resizer K V)
    (hash : Nat) (upd : PendingUpdate K V) (items : Nat)
    (res : Option (Buckets K V)) (rz2 : Resizer K V) (items2 : Nat)
    (hm : ∀ m ∈ rz.markers, m ≤ 2)
    (h : resizeWithPendingUpdate oldT rz hash upd items = some (res, rz2, items2)) :
    rz2.markers = rz.markers.map (fun m => if m = 0 then 2 else m) ∧
    ((∃ nb, res = some nb) ↔ (∀ m ∈ rz2.markers, m = 2)) ∧
    (∀ nb, res = some nb → nb.buckets = rz2.buckets ∧ nb.resizer = none) ∧
    ((∀ m ∈ rz2.markers, m = 2) ↔ (∀ m ∈ rz.markers, m ≠ 1)) ∧
    (∀ (hf : K → Nat) (st st' : HashMapState K V) (k : K) (v : V),
      mapInsert hf st k v = some st' →
      st'.table.buckets.length = st.table.buckets.length ∨
        st'.table.resizer = none) ∧
    (∀ (hf : K → Nat) (st st' : HashMapState K V) (k : K),
      mapRemove hf st k = some st' →
      st'.table.buckets.length = st.table.buckets.length ∨
        st'.table.resizer = none) := by
  obtain ⟨ha, hb, hc⟩ := resize_character oldT rz hash upd items res rz2 items2 h
  refine ⟨ha, hb, hc, ?_, ?_, ?_⟩
  · rw [ha]
    exact map_all2_iff rz.markers hm
  · exact fun hf st st' k v hh => mapInsert_table_change hf st st' k v hh
  · exact fun hf st st' k hh => mapRemove_table_change hf st st' k hh

def c8dst : List (VirtualBucket Nat Nat) := [emptyBucket, emptyBucket]

/-- Claim C8 witness: a concrete resize over a one-bucket source with one
unclaimed chunk marker installs the new table with the marker at 2. -/
theorem resize_installs_only_fully_copied_witness :
    (∀ m ∈ ([0] : List Nat), m ≤ 2) ∧
    resizeWithPendingUpdate (⟨[emptyBucket], none⟩ : Buckets Nat Nat)
      (⟨c8dst, [0]⟩ : Resizer Nat Nat) 1 (PendingUpdate.remove 0) 0 =
      some (some ⟨c8dst, none⟩, ⟨c8dst, [2]⟩, 0) ∧
    ((∀ m ∈ (⟨c8dst, [2]⟩ : Resizer Nat Nat).markers, m = 2) ↔
      (∀ m ∈ (⟨c8dst, [0]⟩ : Resizer Nat Nat).markers, m ≠ 1)) := by
  have h : resizeWithPendingUpdate (⟨[emptyBucket], none⟩ : Buckets Nat Nat)
      (⟨c8dst, [0]⟩ : Resizer Nat Nat) 1 (PendingUpdate.remove 0) 0 =
      some (some ⟨c8dst, none⟩, ⟨c8dst, [2]⟩, 0) := by rfl
  exact ⟨by decide, h,
    (resize_installs_only_fully_copied _ _ 1 (PendingUpdate.remove 0) 0 _ _ _
      (by decide) h).2.2.2.1⟩

end ClaimTheorems

end HashMapModel

end HashmapVerify
